import Mathlib

/-!
# Contiguous memory allocation (`memory.c`)

A shallow embedding of the allocation engine of `memory.c`: a pool of
`MEMSIZE = 80` cells, a process table sorted by start address, a hole list that
is rebuilt after every mutation, the three placement strategies, release and
compaction.

Modelling conventions.

* C `int` values that carry addresses and sizes (`begin`, `end`, `size`,
  `maxHole`) are `Int`. On every path taken from a reachable state these values
  stay within `INT_MIN .. INT_MAX` (addresses lie in `-1 .. 80`, accepted sizes
  in `1 .. 80`), so no wrap-around is modelled.
* Loop counters and the element counts `allocations`, `numHoles` only ever move
  between `0` and `MEMSIZE + 1`; they are `Nat`.
* The global arrays `memory`, `processes`, `holes` are lists of the declared
  length. A read uses `List.getD` (the zero record outside the array), a write
  uses `List.set` (no effect outside the array). The read `processes[j + 1]` in
  `release` reaches one slot past the table; where that leaves the array it
  yields the value `past`, a parameter of `release`: every statement about
  `release` holds for whatever that read returns.
* A `for` loop with a fixed bound is a recursion on the number of iterations
  left; a loop with `break` returns the index at which it stopped.
* `printf` output is returned as a list of strings; what `printf("%s", memory)`
  prints is `shown`, the cells of `memory` in front of the first NUL.
* `releaseChecked` is `release` with every access to `processes` checked
  against the array bounds; it returns `none` at the first access out of range.
* `makeUppercase` works on the buffer that holds the NUL-terminated line.
-/

namespace Memory

/-- The constant `MEMSIZE` of the source. -/
def MEMSIZE : Nat := 80

/-- The constant `INT_MIN` of `limits.h` for a 32-bit `int`. -/
def INT_MIN : Int := -2147483648

/-- The constant `INT_MAX` of `limits.h` for a 32-bit `int`. -/
def INT_MAX : Int := 2147483647

/-- The record `struct Process`; the field `end` of the source is `end_`. -/
structure Process where
  name : Char
  begin : Int
  end_ : Int
deriving DecidableEq, Repr

/-- The record `struct Hole`; the field `end` of the source is `end_`. -/
structure Hole where
  begin : Int
  end_ : Int
deriving DecidableEq, Repr

instance : Inhabited Process := ⟨⟨Char.ofNat 0, 0, 0⟩⟩

instance : Inhabited Hole := ⟨⟨0, 0⟩⟩

/-- The global variables of the program. -/
structure State where
  memory : List Char
  processes : List Process
  holes : List Hole
  numHoles : Nat
  allocations : Nat
  maxHole : Int
deriving DecidableEq, Repr

/-- Array write `a[i] = v` with an `int` index. -/
def store {α : Type} (a : List α) (i : Int) (v : α) : List α :=
  if 0 ≤ i then a.set i.toNat v else a

/-- Body of `for (int i = begin; i <= end; i++) memory[i] = c;` with `n`
iterations left. -/
def fillFrom (c : Char) : Nat → Int → List Char → List Char
  | 0, _, m => m
  | n + 1, i, m => fillFrom c n (i + 1) (store m i c)

/-- The loop `for (int i = begin; i <= end; i++) memory[i] = c;`. -/
def fill (m : List Char) (c : Char) (b e : Int) : List Char :=
  fillFrom c (e - b + 1).toNat b m

/-- The function `max` of the source. -/
def max (n1 n2 : Int) : Int := if n1 > n2 then n1 else n2

/-- The function `initializeMemory`. -/
def initializeMemory (s : State) : State :=
  { s with
    memory := (fill s.memory '.' 0 ((MEMSIZE : Int) - 1)).set MEMSIZE (Char.ofNat 0)
    holes := s.holes.set 0 ⟨0, (MEMSIZE : Int) - 1⟩ }

/-- The three statements `holes[numHoles] = h; numHoles++;
maxHole = max(h.end - h.begin + 1, maxHole);` of `updateHoles`. -/
def pushHole (h : Hole) (s : State) : State :=
  { s with
    holes := s.holes.set s.numHoles h
    numHoles := s.numHoles + 1
    maxHole := max (h.end_ - h.begin + 1) s.maxHole }

/-- The `for` loop of `updateHoles`, with `n` iterations left, at index `i`;
returns the final `prev` and the state. -/
def updateHolesLoop : Nat → Nat → Int → State → Int × State
  | 0, _, prev, s => (prev, s)
  | n + 1, i, prev, s =>
    let p := s.processes.getD i default
    updateHolesLoop n (i + 1) (p.end_ + 1)
      (if p.begin > prev then pushHole ⟨prev, p.begin - 1⟩ s else s)

/-- The function `updateHoles`. -/
def updateHoles (s : State) : State :=
  let r := updateHolesLoop s.allocations 0 0 { s with numHoles := 0, maxHole := INT_MIN }
  if r.1 ≤ (MEMSIZE : Int) - 1 then pushHole ⟨r.1, (MEMSIZE : Int) - 1⟩ r.2 else r.2

/-- The search loop of `allocate`: the first index `i < allocations` with
`begin < processes[i].begin`, if the loop breaks. -/
def findSlot (processes : List Process) (b : Int) : Nat → Nat → Option Nat
  | 0, _ => none
  | n + 1, i =>
    if b < (processes.getD i default).begin then some i else findSlot processes b n (i + 1)

/-- The loop `for (int j = allocations; j > i; j--) processes[j] = processes[j - 1];`
of `allocate`, at index `j`. -/
def shiftUp (i : Nat) : Nat → List Process → List Process
  | 0, ps => ps
  | j + 1, ps =>
    if j + 1 > i then shiftUp i j (ps.set (j + 1) (ps.getD j default)) else ps

/-- The function `allocate`. -/
def allocate (name : Char) (begin size : Int) (s : State) : State :=
  let end_ := begin + size - 1
  let p : Process := ⟨name, begin, end_⟩
  updateHoles
    { s with
      memory := fill s.memory name begin end_
      processes :=
        match findSlot s.processes begin s.allocations 0 with
        | some i => (shiftUp i s.allocations s.processes).set i p
        | none => s.processes.set s.allocations p
      allocations := s.allocations + 1 }

/-- The function `bigEnough`. -/
def bigEnough (h : Hole) (size : Int) : Bool := decide (h.end_ - h.begin + 1 ≥ size)

/-- The first-fit loop of `request`: the index at which it calls `allocate`. -/
def firstFit (holes : List Hole) (size : Int) : Nat → Nat → Option Nat
  | 0, _ => none
  | n + 1, i =>
    if bigEnough (holes.getD i default) size then some i else firstFit holes size n (i + 1)

/-- The best-fit loop of `request`: the final value of `minIndex`, from the
current `m` and `minIndex`. -/
def bestFit (holes : List Hole) (size : Int) : Nat → Nat → Int → Int → Int
  | 0, _, _, minIndex => minIndex
  | n + 1, i, m, minIndex =>
    let h := holes.getD i default
    if bigEnough h size ∧ h.end_ - h.begin + 1 < m then
      bestFit holes size n (i + 1) (h.end_ - h.begin + 1) i
    else bestFit holes size n (i + 1) m minIndex

/-- The worst-fit loop of `request`: the index at which it calls `allocate`. -/
def worstFit (holes : List Hole) (size maxHole : Int) : Nat → Nat → Option Nat
  | 0, _ => none
  | n + 1, i =>
    let h := holes.getD i default
    if bigEnough h size ∧ h.end_ - h.begin + 1 = maxHole then some i
    else worstFit holes size maxHole n (i + 1)

/-- The function `request`; the second component is what it prints. -/
def request (name : Char) (size : Int) (algo : Char) (s : State) : State × List String :=
  if size > s.maxHole then (s, ["Not enough memory\n"])
  else if algo = 'F' then
    match firstFit s.holes size s.numHoles 0 with
    | some i => (allocate name (s.holes.getD i default).begin size s, [])
    | none => (s, [])
  else if algo = 'B' then
    let minIndex := bestFit s.holes size s.numHoles 0 INT_MAX (-1)
    if minIndex > -1 then
      (allocate name (s.holes.getD minIndex.toNat default).begin size s, [])
    else (s, [])
  else if algo = 'W' then
    match worstFit s.holes size s.maxHole s.numHoles 0 with
    | some i => (allocate name (s.holes.getD i default).begin size s, [])
    | none => (s, [])
  else (s, ["Unknown algorithm\n"])

/-- The loop `for (int j = i; j < allocations; j++) processes[j] = processes[j + 1];`
of `release`, with `n` iterations left, at index `j`. The read at `j + 1` yields
`past` when it leaves the array. -/
def shiftDown (past : Process) : Nat → Nat → List Process → List Process
  | 0, _, ps => ps
  | n + 1, j, ps => shiftDown past n (j + 1) (ps.set j (ps.getD (j + 1) past))

/-- The body of `if (p.name == name)` in `release`, at index `i`: free the cells
of `p = processes[i]`, close the gap in the table, lower `allocations`, rebuild
the holes. (The `i--` is undone by the `i++` of the loop.) -/
def releaseAt (past : Process) (i : Nat) (s : State) : State :=
  let p := s.processes.getD i default
  updateHoles
    { s with
      memory := fill s.memory '.' p.begin p.end_
      processes := shiftDown past (s.allocations - i) i s.processes
      allocations := s.allocations - 1 }

/-- The outer loop of `release` at index `i`. An iteration either advances `i`
or lowers `allocations`, so `fuel = allocations - i` iterations suffice. -/
def releaseLoop (past : Process) (name : Char) : Nat → Nat → State → State
  | 0, _, s => s
  | fuel + 1, i, s =>
    if i < s.allocations then
      if (s.processes.getD i default).name = name then
        releaseLoop past name fuel i (releaseAt past i s)
      else releaseLoop past name fuel (i + 1) s
    else s

/-- The function `release`. -/
def release (past : Process) (name : Char) (s : State) : State :=
  releaseLoop past name s.allocations 0 s

/-- The first loop of `compact`, with `n` iterations left, at index `i`. -/
def compactLoop : Nat → Nat → Int → List Process → List Process
  | 0, _, _, ps => ps
  | n + 1, i, prev, ps =>
    let p := ps.getD i default
    let size := p.end_ - p.begin
    let e := prev + size
    compactLoop n (i + 1) (e + 1) (ps.set i ⟨p.name, prev, e⟩)

/-- The second loop of `compact`, with `n` iterations left, at index `i`. -/
def paintLoop (ps : List Process) : Nat → Nat → List Char → List Char
  | 0, _, m => m
  | n + 1, i, m =>
    let p := ps.getD i default
    paintLoop ps n (i + 1) (fill m p.name p.begin p.end_)

/-- The function `compact`. -/
def compact (s : State) : State :=
  let s1 := initializeMemory { s with processes := compactLoop s.allocations 0 0 s.processes }
  updateHoles { s1 with memory := paintLoop s1.processes s1.allocations 0 s1.memory }

/-- The globals as the C runtime zero-initialises them, with the three
initialisers `numHoles = 1`, `allocations = 0`, `maxHole = MEMSIZE`. -/
def zeroState : State :=
  { memory := List.replicate (MEMSIZE + 1) (Char.ofNat 0)
    processes := List.replicate MEMSIZE default
    holes := List.replicate MEMSIZE default
    numHoles := 1
    allocations := 0
    maxHole := MEMSIZE }

/-- The state in which `main` enters its command loop. -/
def initState : State := initializeMemory zeroState

/-- The process table: the first `allocations` slots of `processes`. -/
def table (s : State) : List Process := s.processes.take s.allocations

/-- The hole list: the first `numHoles` slots of `holes`. -/
def holeList (s : State) : List Hole := s.holes.take s.numHoles

/-- The 80 cells of the address space (`memory` without its terminator). -/
def cells (s : State) : List Char := s.memory.take MEMSIZE

/-- Size of a hole, `h.end - h.begin + 1`. -/
def hsize (h : Hole) : Int := h.end_ - h.begin + 1

/-- Size of a segment, `p.end - p.begin + 1`. -/
def psize (p : Process) : Int := p.end_ - p.begin + 1

/-- The holes that a scan of the segments `ps` starting at address `prev`
emits: one for every gap in front of a segment, and the trailing one up to
`MEMSIZE - 1`. -/
def gaps : Int → List Process → List Hole
  | prev, [] => if prev ≤ (MEMSIZE : Int) - 1 then [⟨prev, (MEMSIZE : Int) - 1⟩] else []
  | prev, p :: ps =>
    (if p.begin > prev then [⟨prev, p.begin - 1⟩] else []) ++ gaps (p.end_ + 1) ps

/-- The running maximum that `pushHole` keeps, started at `m`. -/
def foldMax : Int → List Hole → Int
  | m, [] => m
  | m, h :: hs => foldMax (max (hsize h) m) hs

/-- Segments laid out in address order above `prev`: each is non-empty, starts
at or after the end of the one before, and the last ends below `MEMSIZE`. -/
def Laid : Int → List Process → Prop
  | prev, [] => prev ≤ (MEMSIZE : Int)
  | prev, p :: ps => prev ≤ p.begin ∧ p.begin ≤ p.end_ ∧ Laid (p.end_ + 1) ps

/-- Insertion of a segment in front of the first one that starts above it. -/
def insertSeg (p : Process) : List Process → List Process
  | [] => [p]
  | q :: qs => if p.begin < q.begin then p :: q :: qs else q :: insertSeg p qs

/-- Segments moved down to start at `prev`, one right after the other. -/
def relocate : Int → List Process → List Process
  | _, [] => []
  | prev, p :: ps =>
    ⟨p.name, prev, prev + (p.end_ - p.begin)⟩ :: relocate (prev + (p.end_ - p.begin) + 1) ps

/-- Sum of the sizes of the segments. -/
def totalSize : List Process → Int
  | [] => 0
  | p :: ps => psize p + totalSize ps

/-- Address `a` lies in the segment `p`. -/
def inSeg (a : Int) (p : Process) : Prop := p.begin ≤ a ∧ a ≤ p.end_

/-- Address `a` lies in the hole `h`. -/
def inHole (a : Int) (h : Hole) : Prop := h.begin ≤ a ∧ a ≤ h.end_

/-- The part of the state invariant that does not mention the hole list: the
arrays have their declared lengths and the process table is laid out in address
order inside the pool. -/
structure Core (s : State) : Prop where
  memLen : s.memory.length = MEMSIZE + 1
  procLen : s.processes.length = MEMSIZE
  holeLen : s.holes.length = MEMSIZE
  allocLe : s.allocations ≤ MEMSIZE
  laid : Laid 0 (table s)

/-- The state invariant: `Core`, and the hole list, `numHoles` and `maxHole`
are what a scan of the process table produces. -/
structure Inv (s : State) : Prop where
  core : Core s
  holesEq : holeList s = gaps 0 (table s)
  numEq : s.numHoles = (gaps 0 (table s)).length
  maxEq : s.maxHole = foldMax INT_MIN (gaps 0 (table s))

/-- Address `a` lies in a segment of `ps` that is owned by `name`. -/
def Freed (name : Char) (ps : List Process) (a : Nat) : Prop :=
  ∃ p ∈ ps, p.name = name ∧ inSeg (a : Int) p

/-- The maximum of the hole sizes as the specification reads it:
`max(hole sizes)`, and `0` if there are no holes. -/
def maxHoleSize : List Hole → Int
  | [] => 0
  | h :: hs => if hsize h > maxHoleSize hs then hsize h else maxHoleSize hs

/-- States reachable from the initial state by `request` with a positive size
(the dispatcher calls `request` only when `atoi(command[2]) > 0`), `release`
and `compact`. -/
inductive Reachable : State → Prop
  | init : Reachable initState
  | request (s : State) (name : Char) (size : Int) (algo : Char) :
      Reachable s → 1 ≤ size → Reachable (request name size algo s).1
  | release (s : State) (past : Process) (name : Char) :
      Reachable s → Reachable (release past name s)
  | compact (s : State) : Reachable s → Reachable (compact s)

/-- The state after the commands `A A 20 F`, `A B 30 B`, `F A`: the segment
`B:[20,49]` between the holes `[0,19]` and `[50,79]`. -/
def twoHoles : State :=
  release default 'A' (request 'B' 30 'B' (request 'A' 20 'F' initState).1).1

/-- The state after the command `A A 80 F`: the pool is completely allocated. -/
def fullState : State := (request 'A' 80 'F' initState).1

/-- The state after the commands `A A 10 F`, `A B 10 F`, `A A 10 F`: the owner
`A` holds the two segments `[0,9]` and `[20,29]`, with `B:[10,19]` between. -/
def splitOwner : State :=
  (request 'A' 10 'F' (request 'B' 10 'F' (request 'A' 10 'F' initState).1).1).1

/-- Sum of the sizes of the holes. -/
def holesSize : List Hole → Int
  | [] => 0
  | h :: hs => hsize h + holesSize hs

/-- The character NUL that terminates a C string. -/
def NUL : Char := Char.ofNat 0

/-- What the command `S` prints with `printf("%s", memory)`: the characters of
`memory` up to the first NUL. -/
def shown (s : State) : List Char := s.memory.takeWhile (fun c => c ≠ NUL)

/-- The scenario of the specification, step 1: `A A 20 F`. -/
def scenario1 : State := (request 'A' 20 'F' initState).1

/-- The scenario, step 2: `A B 30 B`. -/
def scenario2 : State := (request 'B' 30 'B' scenario1).1

/-- The scenario, step 3: `F A`. -/
def scenario3 : State := release default 'A' scenario2

/-- The scenario, step 4: `A C 25 W`. -/
def scenario4 : State := (request 'C' 25 'W' scenario3).1

/-- The scenario, step 6: `C`. -/
def scenario5 : State := compact scenario4

/-- The assignment `line[i] = line[i] - 32` of `makeUppercase`, applied when
`line[i] >= 'a' && line[i] <= 'z'`; the character itself otherwise. -/
def upper (c : Char) : Char :=
  if 'a'.toNat ≤ c.toNat ∧ c.toNat ≤ 'z'.toNat then Char.ofNat (c.toNat - 32) else c

/-- The `while` loop of `makeUppercase` at index `i`, on the buffer `line`; a
read behind the buffer yields NUL. Every iteration advances `i`, so
`fuel = line.length` iterations suffice. -/
def makeUppercaseLoop : Nat → Nat → List Char → List Char
  | 0, _, line => line
  | fuel + 1, i, line =>
    if line.getD i NUL = NUL then line
    else if i = 0 ∧ (line.getD i NUL = 'r' ∨ line.getD i NUL = 'R') then
      (if line.getD i NUL = 'r' then line.set i 'R' else line)
    else makeUppercaseLoop fuel (i + 1) (line.set i (upper (line.getD i NUL)))

/-- The function `makeUppercase`. -/
def makeUppercase (line : List Char) : List Char :=
  makeUppercaseLoop line.length 0 line

/-- The array `mem` displays the table `tbl`: a cell inside a segment holds the
owner of that segment, a cell of the pool inside no segment holds `'.'`, and
the cell `MEMSIZE` holds the terminator. -/
def Rendered (mem : List Char) (tbl : List Process) : Prop :=
  (∀ a : Nat, ∀ p ∈ tbl, inSeg (a : Int) p → mem[a]? = some p.name) ∧
  (∀ a : Nat, a < MEMSIZE → (¬ ∃ p ∈ tbl, inSeg (a : Int) p) → mem[a]? = some '.') ∧
  mem[MEMSIZE]? = some NUL

/-- States reachable through the command dispatcher: as `Reachable`, where the
owner symbol of a request is `*command[1]`, the first character of a token that
`strtok` returned, hence not NUL. -/
inductive Dispatched : State → Prop
  | init : Dispatched initState
  | request (s : State) (name : Char) (size : Int) (algo : Char) :
      Dispatched s → name ≠ NUL → 1 ≤ size → Dispatched (request name size algo s).1
  | release (s : State) (past : Process) (name : Char) :
      Dispatched s → Dispatched (release past name s)
  | compact (s : State) : Dispatched s → Dispatched (compact s)

/-- The shift loop of `release` with bounds-checked accesses: `none` as soon as
the write `processes[j]` or the read `processes[j + 1]` leaves the array. -/
def shiftDownChecked : Nat → Nat → List Process → Option (List Process)
  | 0, _, ps => some ps
  | n + 1, j, ps =>
    if j < ps.length then
      match ps[j + 1]? with
      | some v => shiftDownChecked n (j + 1) (ps.set j v)
      | none => none
    else none

/-- The outer loop of `release` with bounds-checked accesses to `processes`:
`none` as soon as an index leaves `0 .. MEMSIZE - 1`. -/
def releaseCheckedLoop (name : Char) : Nat → Nat → State → Option State
  | 0, _, s => some s
  | fuel + 1, i, s =>
    if i < s.allocations then
      match s.processes[i]? with
      | none => none
      | some p =>
        if p.name = name then
          match shiftDownChecked (s.allocations - i) i s.processes with
          | none => none
          | some ps =>
            releaseCheckedLoop name fuel i
              (updateHoles
                { s with
                  memory := fill s.memory '.' p.begin p.end_
                  processes := ps
                  allocations := s.allocations - 1 })
        else releaseCheckedLoop name fuel (i + 1) s
    else some s

/-- The function `release` with bounds-checked accesses to `processes`. -/
def releaseChecked (name : Char) (s : State) : Option State :=
  releaseCheckedLoop name s.allocations 0 s

/-- The state after `n` commands `A A 1 F`. -/
def packedTo : Nat → State
  | 0 => initState
  | n + 1 => (request 'A' 1 'F' (packedTo n)).1

/-- The state after 80 commands `A A 1 F`: 80 segments of one cell each. -/
def packed : State := packedTo 80

/-! ## Array helpers -/

theorem getD_length_append {α : Type} (pre : List α) (x : α) (post : List α) (d : α) :
    (pre ++ x :: post).getD pre.length d = x := by
  induction pre with
  | nil => rfl
  | cons a pre ih => simpa using ih

theorem set_length_append {α : Type} (pre : List α) (x y : α) (post : List α) :
    (pre ++ x :: post).set pre.length y = pre ++ y :: post := by
  induction pre with
  | nil => rfl
  | cons a pre ih => simp [ih]

theorem fillFrom_length (c : Char) (n : Nat) (i : Int) (m : List Char) :
    (fillFrom c n i m).length = m.length := by
  induction n generalizing i m with
  | zero => rfl
  | succ n ih =>
    simp only [fillFrom, ih, store]
    split <;> simp

theorem fillFrom_getElem? (c : Char) (n : Nat) (i : Int) (m : List Char) (k : Nat) :
    (fillFrom c n i m)[k]? =
      if i ≤ (k : Int) ∧ (k : Int) < i + n ∧ k < m.length then some c else m[k]? := by
  induction n generalizing i m with
  | zero =>
    have : ¬ (i ≤ (k : Int) ∧ (k : Int) < i + (0 : Nat) ∧ k < m.length) := by omega
    simp only [fillFrom, this, if_false]
  | succ n ih =>
    simp only [fillFrom, ih, store]
    by_cases h0 : 0 ≤ i
    · simp only [h0, if_true, List.length_set, List.getElem?_set]
      by_cases hk : i.toNat = k
      · have h1 : ¬ (i + 1 ≤ (k : Int) ∧ (k : Int) < i + 1 + n ∧ k < m.length) := by omega
        simp only [h1, if_false, hk, if_true]
        by_cases hl : k < m.length
        · have h2 : i ≤ (k : Int) ∧ (k : Int) < i + ((n + 1 : Nat) : Int) ∧ k < m.length := by
            omega
          rw [if_pos h2, if_pos hl]
        · have h2 : ¬ (i ≤ (k : Int) ∧ (k : Int) < i + ((n + 1 : Nat) : Int) ∧ k < m.length) := by
            omega
          rw [if_neg h2, if_neg hl]
          exact (List.getElem?_eq_none (Nat.le_of_not_lt hl)).symm
      · simp only [hk, if_false]
        have h3 : (i + 1 ≤ (k : Int) ∧ (k : Int) < i + 1 + n ∧ k < m.length) ↔
            (i ≤ (k : Int) ∧ (k : Int) < i + ((n + 1 : Nat) : Int) ∧ k < m.length) := by omega
        simp only [h3]
    · simp only [h0, if_false]
      have h3 : (i + 1 ≤ (k : Int) ∧ (k : Int) < i + 1 + n ∧ k < m.length) ↔
          (i ≤ (k : Int) ∧ (k : Int) < i + ((n + 1 : Nat) : Int) ∧ k < m.length) := by omega
      simp only [h3]

theorem fill_length (m : List Char) (c : Char) (b e : Int) :
    (fill m c b e).length = m.length := fillFrom_length c _ b m

theorem fill_getElem? (m : List Char) (c : Char) (b e : Int) (k : Nat) :
    (fill m c b e)[k]? =
      if b ≤ (k : Int) ∧ (k : Int) ≤ e ∧ k < m.length then some c else m[k]? := by
  unfold fill
  rw [fillFrom_getElem?]
  have h3 : (b ≤ (k : Int) ∧ (k : Int) < b + ((e - b + 1).toNat : Int) ∧ k < m.length) ↔
      (b ≤ (k : Int) ∧ (k : Int) ≤ e ∧ k < m.length) := by omega
  simp only [h3]

/-! ## The hole scan -/

theorem foldMax_append (m : Int) (a b : List Hole) :
    foldMax m (a ++ b) = foldMax (foldMax m a) b := by
  induction a generalizing m with
  | nil => rfl
  | cons h a ih => simp [foldMax, ih]

theorem pushHole_spec (h : Hole) (s : State) (hpre : List Hole) (x : Hole) (r : List Hole)
    (hh : s.holes = hpre ++ x :: r) (hn : s.numHoles = hpre.length) :
    (pushHole h s).holes = (hpre ++ [h]) ++ r ∧ (pushHole h s).numHoles = (hpre ++ [h]).length ∧
    (pushHole h s).maxHole = max (hsize h) s.maxHole ∧
    (pushHole h s).memory = s.memory ∧ (pushHole h s).processes = s.processes ∧
    (pushHole h s).allocations = s.allocations := by
  simp [pushHole, hh, hn, set_length_append, hsize]

theorem updateHolesLoop_spec (mid : List Process) :
    ∀ (pre post : List Process) (prev : Int) (s : State) (hpre hrest : List Hole),
      s.processes = pre ++ mid ++ post → s.holes = hpre ++ hrest →
      s.numHoles = hpre.length → (gaps prev mid).length ≤ hrest.length →
      ∀ t : State,
        t = (if (updateHolesLoop mid.length pre.length prev s).1 ≤ (MEMSIZE : Int) - 1 then
              pushHole ⟨(updateHolesLoop mid.length pre.length prev s).1, (MEMSIZE : Int) - 1⟩
                (updateHolesLoop mid.length pre.length prev s).2
             else (updateHolesLoop mid.length pre.length prev s).2) →
        t.holes = hpre ++ gaps prev mid ++ hrest.drop (gaps prev mid).length ∧
        t.numHoles = hpre.length + (gaps prev mid).length ∧
        t.maxHole = foldMax s.maxHole (gaps prev mid) ∧
        t.memory = s.memory ∧ t.processes = s.processes ∧ t.allocations = s.allocations := by
  induction mid with
  | nil =>
    intro pre post prev s hpre hrest _ hh hn hlen t ht
    simp only [List.length_nil, updateHolesLoop] at ht
    by_cases hp : prev ≤ (MEMSIZE : Int) - 1
    · simp only [gaps, hp, if_true] at hlen ⊢
      rw [if_pos hp] at ht
      cases hrest with
      | nil => simp at hlen
      | cons x r =>
        obtain ⟨h1, h2, h3, h4, h5, h6⟩ := pushHole_spec ⟨prev, (MEMSIZE : Int) - 1⟩ s hpre x r hh hn
        subst ht
        refine ⟨?_, ?_, ?_, h4, h5, h6⟩
        · simpa using h1
        · simpa using h2
        · simpa [foldMax] using h3
    · simp only [gaps, hp, if_false] at hlen ⊢
      rw [if_neg hp] at ht
      subst ht
      simp [foldMax, hh, hn]
  | cons p mid ih =>
    intro pre post prev s hpre hrest hps hh hn hlen t ht
    have hget : s.processes.getD pre.length default = p := by
      rw [hps]; simpa using getD_length_append pre p (mid ++ post) default
    simp only [List.length_cons, updateHolesLoop, hget] at ht
    have hpre1 : (pre ++ [p]).length = pre.length + 1 := by simp
    rw [← hpre1] at ht
    by_cases hb : p.begin > prev
    · simp only [gaps, hb, if_true] at hlen ⊢
      simp only [hb, if_true] at ht
      cases hrest with
      | nil => simp at hlen
      | cons x r =>
        obtain ⟨h1, h2, h3, h4, h5, h6⟩ := pushHole_spec ⟨prev, p.begin - 1⟩ s hpre x r hh hn
        have hlen1 : (gaps (p.end_ + 1) mid).length ≤ r.length := by
          simp at hlen; omega
        obtain ⟨g1, g2, g3, g4, g5, g6⟩ := ih (pre ++ [p]) post (p.end_ + 1) _ (hpre ++ [_]) r
          (by rw [h5, hps]; simp) h1 h2 hlen1 t ht
        refine ⟨?_, ?_, ?_, g4.trans h4, g5.trans h5, g6.trans h6⟩
        · simpa using g1
        · simp at g2 ⊢; omega
        · rw [g3, h3]; simp [foldMax]
    · simp only [gaps, hb, if_false] at hlen ⊢
      simp only [hb, if_false] at ht
      obtain ⟨g1, g2, g3, g4, g5, g6⟩ := ih (pre ++ [p]) post (p.end_ + 1) s hpre hrest
        (by rw [hps]; simp) hh hn (by simpa using hlen) t ht
      exact ⟨by simpa using g1, by simpa using g2, by simpa using g3, g4, g5, g6⟩

theorem laid_count (ps : List Process) :
    ∀ prev : Int, Laid prev ps →
      ((gaps prev ps).length : Int) + (ps.length : Int) ≤ (MEMSIZE : Int) - prev := by
  induction ps with
  | nil =>
    intro prev h
    simp only [Laid, MEMSIZE] at h
    simp only [gaps, MEMSIZE]
    split <;> simp <;> omega
  | cons p ps ih =>
    intro prev h
    obtain ⟨h1, h2, h3⟩ := h
    have := ih _ h3
    simp only [gaps, List.length_append, List.length_cons]
    split <;> simp <;> omega

theorem laid_le (ps : List Process) : ∀ prev : Int, Laid prev ps → prev ≤ (MEMSIZE : Int) := by
  induction ps with
  | nil => intro prev h; exact h
  | cons p ps ih =>
    intro prev h
    obtain ⟨h1, h2, h3⟩ := h
    have := ih _ h3
    omega

theorem laid_mono (ps : List Process) (prev prev1 : Int) (h : Laid prev ps) (hle : prev1 ≤ prev) :
    Laid prev1 ps := by
  cases ps with
  | nil => simp only [Laid] at h ⊢; omega
  | cons p ps =>
    obtain ⟨h1, h2, h3⟩ := h
    exact ⟨by omega, h2, h3⟩

theorem table_length (s : State) (hl : s.processes.length = MEMSIZE) (ha : s.allocations ≤ MEMSIZE) :
    (table s).length = s.allocations := by
  simp [table, hl, ha]

theorem updateHoles_spec (s : State) (hl : s.processes.length = MEMSIZE)
    (hh : s.holes.length = MEMSIZE) (ha : s.allocations ≤ MEMSIZE) (hlaid : Laid 0 (table s)) :
    (updateHoles s).memory = s.memory ∧ (updateHoles s).processes = s.processes ∧
    (updateHoles s).allocations = s.allocations ∧ (updateHoles s).holes.length = MEMSIZE ∧
    holeList (updateHoles s) = gaps 0 (table s) ∧
    (updateHoles s).numHoles = (gaps 0 (table s)).length ∧
    (updateHoles s).maxHole = foldMax INT_MIN (gaps 0 (table s)) := by
  have hcount := laid_count _ _ hlaid
  have htl := table_length s hl ha
  have hlen : (gaps 0 (table s)).length ≤ s.holes.length := by
    rw [hh]; simp only [MEMSIZE] at hcount ⊢; omega
  have key := updateHolesLoop_spec (table s) [] (s.processes.drop s.allocations) 0
    { s with numHoles := 0, maxHole := INT_MIN } [] s.holes
    (by simp [table]) (by simp) (by simp) hlen (updateHoles s)
    (by simp only [updateHoles, htl, List.length_nil])
  obtain ⟨g1, g2, g3, g4, g5, g6⟩ := key
  simp only [List.nil_append, List.length_nil, Nat.zero_add] at g1 g2 g3 g4 g5 g6
  refine ⟨g4, g5, g6, ?_, ?_, g2, g3⟩
  · rw [g1]; simp only [List.length_append, List.length_drop]; omega
  · rw [holeList, g1, g2]; simp

theorem updateHoles_table (s : State) (hl : s.processes.length = MEMSIZE)
    (hh : s.holes.length = MEMSIZE) (ha : s.allocations ≤ MEMSIZE) (hlaid : Laid 0 (table s)) :
    table (updateHoles s) = table s := by
  obtain ⟨_, h2, h3, _⟩ := updateHoles_spec s hl hh ha hlaid
  simp only [table, h2, h3]

theorem updateHoles_inv (s : State) (hc : Core s) : Inv (updateHoles s) := by
  obtain ⟨h1, h2, h3, h4, h5, h6, h7⟩ := updateHoles_spec s hc.procLen hc.holeLen hc.allocLe hc.laid
  have ht := updateHoles_table s hc.procLen hc.holeLen hc.allocLe hc.laid
  exact
    { core :=
        { memLen := by rw [h1]; exact hc.memLen
          procLen := by rw [h2]; exact hc.procLen
          holeLen := h4
          allocLe := by rw [h3]; exact hc.allocLe
          laid := by rw [ht]; exact hc.laid }
      holesEq := by rw [ht]; exact h5
      numEq := by rw [ht]; exact h6
      maxEq := by rw [ht]; exact h7 }

/-! ## Insertion into the process table -/

theorem shiftUp_spec (pre m : List Process) :
    ∀ (y : Process) (post : List Process),
      shiftUp pre.length (pre.length + m.length) (pre ++ m ++ y :: post) =
        pre ++ (m ++ [y]).headD y :: m ++ post := by
  induction m using List.reverseRecOn with
  | nil =>
    intro y post
    cases hp : pre.length with
    | zero => simp [shiftUp]
    | succ k => simp [shiftUp]
  | append_singleton m0 z ih =>
    intro y post
    have hlen : pre.length + (m0 ++ [z]).length = (pre.length + m0.length) + 1 := by
      simp; omega
    rw [hlen, shiftUp]
    have hgt : pre.length + m0.length + 1 > pre.length := by omega
    rw [if_pos hgt]
    have hget : (pre ++ (m0 ++ [z]) ++ y :: post).getD (pre.length + m0.length) default = z := by
      have := getD_length_append (pre ++ m0) z (y :: post) default
      simpa using this
    have hset : (pre ++ (m0 ++ [z]) ++ y :: post).set (pre.length + m0.length + 1) z =
        pre ++ m0 ++ z :: z :: post := by
      have h := set_length_append (pre ++ m0 ++ [z]) y z post
      have hl : (pre ++ m0 ++ [z]).length = pre.length + m0.length + 1 := by
        simp only [List.length_append, List.length_singleton]
      rw [hl] at h
      simp only [List.append_assoc, List.singleton_append, List.cons_append,
        List.nil_append] at h ⊢
      exact h
    rw [hget, hset, ih z (z :: post)]
    cases m0 <;> simp

theorem allocSlot_spec (p : Process) (mid : List Process) :
    ∀ (pre : List Process) (x : Process) (post : List Process),
      (match findSlot (pre ++ mid ++ x :: post) p.begin mid.length pre.length with
        | some i => (shiftUp i (pre.length + mid.length) (pre ++ mid ++ x :: post)).set i p
        | none => (pre ++ mid ++ x :: post).set (pre.length + mid.length) p) =
      pre ++ insertSeg p mid ++ post := by
  induction mid with
  | nil =>
    intro pre x post
    simp [findSlot, insertSeg, set_length_append]
  | cons q mid ih =>
    intro pre x post
    have hget : (pre ++ q :: mid ++ x :: post).getD pre.length default = q := by
      simpa using getD_length_append pre q (mid ++ x :: post) default
    simp only [List.length_cons, findSlot, hget, insertSeg]
    by_cases hb : p.begin < q.begin
    · simp only [hb, if_true]
      have h1 := shiftUp_spec pre (q :: mid) x post
      simp only [List.length_cons] at h1
      rw [h1]
      have h := set_length_append pre q p (q :: mid ++ post)
      simp only [List.append_assoc, List.singleton_append, List.cons_append,
        List.nil_append, List.headD_cons] at h ⊢
      exact h
    · simp only [hb, if_false]
      have h1 := ih (pre ++ [q]) x post
      simp only [List.length_append, List.length_singleton, List.append_assoc,
        List.singleton_append] at h1
      have e : pre.length + (mid.length + 1) = pre.length + 1 + mid.length := by omega
      rw [e]
      simpa using h1

theorem allocSlot_spec0 (p : Process) (tbl : List Process) (x : Process) (post : List Process)
    (arr : List Process) (a : Nat) (harr : arr = tbl ++ x :: post) (ha : a = tbl.length) :
    (match findSlot arr p.begin a 0 with
      | some i => (shiftUp i a arr).set i p
      | none => arr.set a p) = insertSeg p tbl ++ post := by
  subst harr ha
  have h := allocSlot_spec p tbl [] x post
  simp only [List.nil_append, List.length_nil, Nat.zero_add] at h
  exact h

theorem insertSeg_length (p : Process) (ps : List Process) :
    (insertSeg p ps).length = ps.length + 1 := by
  induction ps with
  | nil => rfl
  | cons q qs ih =>
    simp only [insertSeg]
    split <;> simp [ih]

theorem insertSeg_split (p : Process) (ps : List Process) :
    ∃ l1 l2, ps = l1 ++ l2 ∧ insertSeg p ps = l1 ++ p :: l2 := by
  induction ps with
  | nil => exact ⟨[], [], rfl, rfl⟩
  | cons q qs ih =>
    simp only [insertSeg]
    by_cases hb : p.begin < q.begin
    · exact ⟨[], q :: qs, rfl, by simp [hb]⟩
    · obtain ⟨l1, l2, h1, h2⟩ := ih
      exact ⟨q :: l1, l2, by simp [h1], by simp [hb, h2]⟩

theorem gaps_bounds (ps : List Process) :
    ∀ (prev : Int) (h : Hole), Laid prev ps → h ∈ gaps prev ps →
      prev ≤ h.begin ∧ h.begin ≤ h.end_ ∧ h.end_ ≤ (MEMSIZE : Int) - 1 := by
  induction ps with
  | nil =>
    intro prev h _ hm
    simp only [gaps] at hm
    split at hm
    · simp only [List.mem_singleton] at hm
      subst hm
      simp only [MEMSIZE] at *
      omega
    · simp at hm
  | cons p ps ih =>
    intro prev h hl hm
    obtain ⟨h1, h2, h3⟩ := hl
    simp only [gaps, List.mem_append] at hm
    rcases hm with hm | hm
    · split at hm
      · simp only [List.mem_singleton] at hm
        subst hm
        have := laid_le _ _ h3
        simp only [MEMSIZE] at *
        refine ⟨le_refl _, ?_, ?_⟩ <;> omega
      · simp at hm
    · obtain ⟨g1, g2, g3⟩ := ih _ h h3 hm
      exact ⟨by omega, g2, g3⟩

theorem laid_insert (name : Char) (k : Int) (hk1 : 1 ≤ k) (ps : List Process) :
    ∀ (prev : Int) (h : Hole), Laid prev ps → h ∈ gaps prev ps → k ≤ hsize h →
      Laid prev (insertSeg ⟨name, h.begin, h.begin + k - 1⟩ ps) := by
  induction ps with
  | nil =>
    intro prev h _ hm hk
    simp only [gaps] at hm
    split at hm
    · simp only [List.mem_singleton] at hm
      subst hm
      simp only [hsize, MEMSIZE] at hk
      simp only [insertSeg, Laid, MEMSIZE]
      omega
    · simp at hm
  | cons p ps ih =>
    intro prev h hl hm hk
    obtain ⟨h1, h2, h3⟩ := hl
    simp only [gaps, List.mem_append] at hm
    rcases hm with hm | hm
    · split at hm
      · rename_i hgt
        simp only [List.mem_singleton] at hm
        subst hm
        simp only [hsize] at hk
        have hlt : prev < p.begin := hgt
        simp only [insertSeg, hlt, if_true, Laid]
        exact ⟨le_refl _, by omega, by omega, h2, h3⟩
      · simp at hm
    · obtain ⟨g1, g2, g3⟩ := gaps_bounds ps _ h h3 hm
      have hnlt : ¬ h.begin < p.begin := by omega
      simp only [insertSeg, hnlt, if_false, Laid]
      exact ⟨h1, h2, ih _ h h3 hm hk⟩

theorem allocate_spec (s : State) (hi : Inv s) (name : Char) (h : Hole)
    (hmem : h ∈ holeList s) (k : Int) (hk1 : 1 ≤ k) (hk : k ≤ hsize h) :
    Inv (allocate name h.begin k s) ∧
    table (allocate name h.begin k s) =
      insertSeg ⟨name, h.begin, h.begin + k - 1⟩ (table s) ∧
    (allocate name h.begin k s).memory = fill s.memory name h.begin (h.begin + k - 1) := by
  have hc := hi.core
  rw [hi.holesEq] at hmem
  have htl := table_length s hc.procLen hc.allocLe
  have hcount := laid_count _ _ hc.laid
  have hpos : 0 < (gaps 0 (table s)).length := List.length_pos_of_mem hmem
  have halt : s.allocations < MEMSIZE := by
    simp only [MEMSIZE] at hcount ⊢; omega
  have hplen := hc.procLen
  obtain ⟨x, post, hpost⟩ : ∃ x post, s.processes.drop s.allocations = x :: post := by
    cases hd : s.processes.drop s.allocations with
    | nil =>
      have := congrArg List.length hd
      simp only [List.length_drop, List.length_nil] at this
      omega
    | cons x post => exact ⟨x, post, rfl⟩
  have harr : s.processes = table s ++ x :: post := by
    rw [← hpost, table, List.take_append_drop]
  have hslot := allocSlot_spec0 ⟨name, h.begin, h.begin + k - 1⟩ (table s) x post
    s.processes s.allocations harr htl.symm
  simp only at hslot
  have hpl : post.length + s.allocations + 1 = MEMSIZE := by
    have := congrArg List.length harr
    simp only [List.length_append, List.length_cons, htl] at this
    omega
  have hlaid := laid_insert name k hk1 (table s) 0 h hc.laid hmem hk
  have hlen1 := insertSeg_length ⟨name, h.begin, h.begin + k - 1⟩ (table s)
  have hcore : Core
      { s with
        memory := fill s.memory name h.begin (h.begin + k - 1)
        processes :=
          match findSlot s.processes h.begin s.allocations 0 with
          | some i => (shiftUp i s.allocations s.processes).set i ⟨name, h.begin, h.begin + k - 1⟩
          | none => s.processes.set s.allocations ⟨name, h.begin, h.begin + k - 1⟩
        allocations := s.allocations + 1 } ∧
      table
      { s with
        memory := fill s.memory name h.begin (h.begin + k - 1)
        processes :=
          match findSlot s.processes h.begin s.allocations 0 with
          | some i => (shiftUp i s.allocations s.processes).set i ⟨name, h.begin, h.begin + k - 1⟩
          | none => s.processes.set s.allocations ⟨name, h.begin, h.begin + k - 1⟩
        allocations := s.allocations + 1 } =
        insertSeg ⟨name, h.begin, h.begin + k - 1⟩ (table s) := by
    have ht : table
      { s with
        memory := fill s.memory name h.begin (h.begin + k - 1)
        processes :=
          match findSlot s.processes h.begin s.allocations 0 with
          | some i => (shiftUp i s.allocations s.processes).set i ⟨name, h.begin, h.begin + k - 1⟩
          | none => s.processes.set s.allocations ⟨name, h.begin, h.begin + k - 1⟩
        allocations := s.allocations + 1 } =
        insertSeg ⟨name, h.begin, h.begin + k - 1⟩ (table s) := by
      have e : ∀ t : State, table t = t.processes.take t.allocations := fun _ => rfl
      rw [e]
      simp only []
      rw [hslot, List.take_left' (by rw [hlen1, htl])]
    refine ⟨?_, ht⟩
    exact
      { memLen := by simp only [fill_length]; exact hc.memLen
        procLen := by
          simp only [hslot, List.length_append, hlen1, htl]; omega
        holeLen := hc.holeLen
        allocLe := by simp only; omega
        laid := by rw [ht]; exact hlaid }
  obtain ⟨hcore, ht⟩ := hcore
  refine ⟨updateHoles_inv _ hcore, ?_, ?_⟩
  · show table (updateHoles _) = _
    rw [updateHoles_table _ hcore.procLen hcore.holeLen hcore.allocLe hcore.laid, ht]
  · exact (updateHoles_spec _ hcore.procLen hcore.holeLen hcore.allocLe hcore.laid).1

/-! ## The placement scans -/

theorem firstFit_spec (size : Int) (mid : List Hole) :
    ∀ (pre post : List Hole),
      (firstFit (pre ++ mid ++ post) size mid.length pre.length = none ∧
        ∀ x ∈ mid, bigEnough x size = false) ∨
      ∃ l1 h l2, mid = l1 ++ h :: l2 ∧
        firstFit (pre ++ mid ++ post) size mid.length pre.length = some (pre.length + l1.length) ∧
        (pre ++ mid ++ post).getD (pre.length + l1.length) default = h ∧
        bigEnough h size = true ∧ ∀ x ∈ l1, bigEnough x size = false := by
  induction mid with
  | nil => intro pre post; left; simp [firstFit]
  | cons x mid ih =>
    intro pre post
    have hget : (pre ++ x :: mid ++ post).getD pre.length default = x := by
      simpa using getD_length_append pre x (mid ++ post) default
    simp only [List.length_cons, firstFit, hget]
    by_cases hb : bigEnough x size = true
    · right
      exact ⟨[], x, mid, rfl, by simp [hb], by simpa using hget, hb, by simp⟩
    · have hb' : bigEnough x size = false := by simpa using hb
      have e : pre ++ x :: mid ++ post = (pre ++ [x]) ++ mid ++ post := by simp
      have el : pre.length + 1 = (pre ++ [x]).length := by simp
      rw [if_neg hb, e, el]
      rcases ih (pre ++ [x]) post with ⟨h1, h2⟩ | ⟨l1, h, l2, h1, h2, h3, h4, h5⟩
      · left
        refine ⟨h1, ?_⟩
        intro y hy
        rcases List.mem_cons.mp hy with rfl | hy
        · exact hb'
        · exact h2 y hy
      · right
        have hi : pre.length + (x :: l1).length = (pre ++ [x]).length + l1.length := by
          simp only [List.length_append, List.length_cons, List.length_singleton, List.length_nil]
          omega
        refine ⟨x :: l1, h, l2, by simp [h1], ?_, ?_, h4, ?_⟩
        · rw [h2, hi]
        · rw [hi]; exact h3
        · intro y hy
          rcases List.mem_cons.mp hy with rfl | hy
          · exact hb'
          · exact h5 y hy

theorem worstFit_spec (size maxHole : Int) (mid : List Hole) :
    ∀ (pre post : List Hole),
      (worstFit (pre ++ mid ++ post) size maxHole mid.length pre.length = none ∧
        ∀ x ∈ mid, ¬ (bigEnough x size = true ∧ hsize x = maxHole)) ∨
      ∃ l1 h l2, mid = l1 ++ h :: l2 ∧
        worstFit (pre ++ mid ++ post) size maxHole mid.length pre.length =
          some (pre.length + l1.length) ∧
        (pre ++ mid ++ post).getD (pre.length + l1.length) default = h ∧
        (bigEnough h size = true ∧ hsize h = maxHole) ∧
        ∀ x ∈ l1, ¬ (bigEnough x size = true ∧ hsize x = maxHole) := by
  induction mid with
  | nil => intro pre post; left; simp [worstFit]
  | cons x mid ih =>
    intro pre post
    have hget : (pre ++ x :: mid ++ post).getD pre.length default = x := by
      simpa using getD_length_append pre x (mid ++ post) default
    simp only [List.length_cons, worstFit, hget]
    by_cases hb : bigEnough x size = true ∧ x.end_ - x.begin + 1 = maxHole
    · right
      exact ⟨[], x, mid, rfl, by simp [hb], by simpa using hget, hb, by simp⟩
    · have e : pre ++ x :: mid ++ post = (pre ++ [x]) ++ mid ++ post := by simp
      have el : pre.length + 1 = (pre ++ [x]).length := by simp
      rw [if_neg hb, e, el]
      rcases ih (pre ++ [x]) post with ⟨h1, h2⟩ | ⟨l1, h, l2, h1, h2, h3, h4, h5⟩
      · left
        refine ⟨h1, ?_⟩
        intro y hy
        rcases List.mem_cons.mp hy with rfl | hy
        · exact hb
        · exact h2 y hy
      · right
        have hi : pre.length + (x :: l1).length = (pre ++ [x]).length + l1.length := by
          simp only [List.length_append, List.length_cons, List.length_singleton, List.length_nil]
          omega
        refine ⟨x :: l1, h, l2, by simp [h1], ?_, ?_, h4, ?_⟩
        · rw [h2, hi]
        · rw [hi]; exact h3
        · intro y hy
          rcases List.mem_cons.mp hy with rfl | hy
          · exact hb
          · exact h5 y hy

theorem bestFit_spec (size : Int) (mid : List Hole) :
    ∀ (pre post : List Hole) (m mi : Int),
      (bestFit (pre ++ mid ++ post) size mid.length pre.length m mi = mi ∧
        ∀ x ∈ mid, ¬ (bigEnough x size = true ∧ hsize x < m)) ∨
      ∃ l1 h l2, mid = l1 ++ h :: l2 ∧
        bestFit (pre ++ mid ++ post) size mid.length pre.length m mi =
          ((pre.length + l1.length : Nat) : Int) ∧
        (pre ++ mid ++ post).getD (pre.length + l1.length) default = h ∧
        bigEnough h size = true ∧ hsize h < m ∧
        (∀ x ∈ l1, bigEnough x size = true → hsize h < hsize x) ∧
        (∀ x ∈ l2, bigEnough x size = true → hsize h ≤ hsize x) := by
  induction mid with
  | nil => intro pre post m mi; left; simp [bestFit]
  | cons x mid ih =>
    intro pre post m mi
    have hget : (pre ++ x :: mid ++ post).getD pre.length default = x := by
      simpa using getD_length_append pre x (mid ++ post) default
    have e : pre ++ x :: mid ++ post = (pre ++ [x]) ++ mid ++ post := by simp
    have el : pre.length + 1 = (pre ++ [x]).length := by simp
    simp only [List.length_cons, bestFit, hget]
    by_cases hb : bigEnough x size = true ∧ x.end_ - x.begin + 1 < m
    · rw [if_pos hb, e, el]
      right
      rcases ih (pre ++ [x]) post (x.end_ - x.begin + 1) (pre.length : Int) with
        ⟨h1, h2⟩ | ⟨l1, h, l2, h1, h2, h3, h4, h5, h6, h7⟩
      · refine ⟨[], x, mid, rfl, ?_, ?_, hb.1, hb.2, by simp, ?_⟩
        · rw [h1]; simp
        · rw [← e]; simpa using hget
        · intro y hy hby
          have := h2 y hy
          simp only [hsize] at this ⊢
          by_contra hlt
          exact this ⟨hby, by omega⟩
      · have hi : pre.length + (x :: l1).length = (pre ++ [x]).length + l1.length := by
          simp only [List.length_append, List.length_cons, List.length_singleton, List.length_nil]
          omega
        refine ⟨x :: l1, h, l2, by simp [h1], ?_, ?_, h4, ?_, ?_, h7⟩
        · rw [h2, hi]
        · rw [hi]; exact h3
        · simp only [hsize] at h5 ⊢; omega
        · intro y hy hby
          rcases List.mem_cons.mp hy with rfl | hy
          · simpa [hsize] using h5
          · exact h6 y hy hby
    · rw [if_neg hb, e, el]
      rcases ih (pre ++ [x]) post m mi with
        ⟨h1, h2⟩ | ⟨l1, h, l2, h1, h2, h3, h4, h5, h6, h7⟩
      · left
        refine ⟨h1, ?_⟩
        intro y hy
        rcases List.mem_cons.mp hy with rfl | hy
        · simpa [hsize] using hb
        · exact h2 y hy
      · right
        have hi : pre.length + (x :: l1).length = (pre ++ [x]).length + l1.length := by
          simp only [List.length_append, List.length_cons, List.length_singleton, List.length_nil]
          omega
        refine ⟨x :: l1, h, l2, by simp [h1], ?_, ?_, h4, h5, ?_, h7⟩
        · rw [h2, hi]
        · rw [hi]; exact h3
        · intro y hy hby
          rcases List.mem_cons.mp hy with rfl | hy
          · simp only [hsize] at h5 ⊢
            by_contra hlt
            exact hb ⟨hby, by omega⟩
          · exact h6 y hy hby

theorem firstFit_spec0 (size : Int) (hl post arr : List Hole) (n : Nat)
    (harr : arr = hl ++ post) (hn : n = hl.length) :
    (firstFit arr size n 0 = none ∧ ∀ x ∈ hl, bigEnough x size = false) ∨
    ∃ l1 h l2, hl = l1 ++ h :: l2 ∧ firstFit arr size n 0 = some l1.length ∧
      arr.getD l1.length default = h ∧ bigEnough h size = true ∧
      ∀ x ∈ l1, bigEnough x size = false := by
  subst harr hn
  have h := firstFit_spec size hl [] post
  simp only [List.nil_append, List.length_nil, Nat.zero_add] at h
  exact h

theorem worstFit_spec0 (size maxHole : Int) (hl post arr : List Hole) (n : Nat)
    (harr : arr = hl ++ post) (hn : n = hl.length) :
    (worstFit arr size maxHole n 0 = none ∧
      ∀ x ∈ hl, ¬ (bigEnough x size = true ∧ hsize x = maxHole)) ∨
    ∃ l1 h l2, hl = l1 ++ h :: l2 ∧ worstFit arr size maxHole n 0 = some l1.length ∧
      arr.getD l1.length default = h ∧ (bigEnough h size = true ∧ hsize h = maxHole) ∧
      ∀ x ∈ l1, ¬ (bigEnough x size = true ∧ hsize x = maxHole) := by
  subst harr hn
  have h := worstFit_spec size maxHole hl [] post
  simp only [List.nil_append, List.length_nil, Nat.zero_add] at h
  exact h

theorem bestFit_spec0 (size : Int) (hl post arr : List Hole) (n : Nat) (m mi : Int)
    (harr : arr = hl ++ post) (hn : n = hl.length) :
    (bestFit arr size n 0 m mi = mi ∧ ∀ x ∈ hl, ¬ (bigEnough x size = true ∧ hsize x < m)) ∨
    ∃ l1 h l2, hl = l1 ++ h :: l2 ∧ bestFit arr size n 0 m mi = (l1.length : Int) ∧
      arr.getD l1.length default = h ∧ bigEnough h size = true ∧ hsize h < m ∧
      (∀ x ∈ l1, bigEnough x size = true → hsize h < hsize x) ∧
      (∀ x ∈ l2, bigEnough x size = true → hsize h ≤ hsize x) := by
  subst harr hn
  have h := bestFit_spec size hl [] post m mi
  simp only [List.nil_append, List.length_nil, Nat.zero_add] at h
  exact h

theorem bigEnough_iff (h : Hole) (size : Int) : bigEnough h size = true ↔ size ≤ hsize h := by
  simp [bigEnough, hsize]

theorem bigEnough_false_iff (h : Hole) (size : Int) :
    bigEnough h size = false ↔ hsize h < size := by
  simp [bigEnough, hsize]

theorem max_def (a b : Int) : max a b = if a > b then a else b := rfl

theorem max_ge_left (a b : Int) : a ≤ max a b := by
  rw [max_def]; split <;> omega

theorem max_ge_right (a b : Int) : b ≤ max a b := by
  rw [max_def]; split <;> omega

theorem foldMax_ge_init (l : List Hole) : ∀ m : Int, m ≤ foldMax m l := by
  induction l with
  | nil => intro m; exact le_refl _
  | cons h l ih =>
    intro m
    simp only [foldMax]
    exact le_trans (max_ge_right _ _) (ih _)

theorem foldMax_ge (l : List Hole) : ∀ (m : Int) (h : Hole), h ∈ l → hsize h ≤ foldMax m l := by
  induction l with
  | nil => intro m h hm; simp at hm
  | cons x l ih =>
    intro m h hm
    simp only [foldMax]
    rcases List.mem_cons.mp hm with rfl | hm
    · exact le_trans (max_ge_left _ _) (foldMax_ge_init l _)
    · exact ih _ h hm

theorem foldMax_mem (l : List Hole) :
    ∀ m : Int, foldMax m l = m ∨ ∃ h ∈ l, hsize h = foldMax m l := by
  induction l with
  | nil => intro m; left; rfl
  | cons x l ih =>
    intro m
    simp only [foldMax]
    rcases ih (max (hsize x) m) with h1 | ⟨h, hm, he⟩
    · rw [h1, max_def]
      split
      · right; exact ⟨x, List.mem_cons_self _ _, rfl⟩
      · left; rfl
    · right; exact ⟨h, List.mem_cons_of_mem _ hm, he⟩

theorem gaps_sorted (ps : List Process) :
    ∀ prev : Int, Laid prev ps →
      (gaps prev ps).Pairwise (fun a b => a.end_ + 1 < b.begin) := by
  induction ps with
  | nil =>
    intro prev _
    simp only [gaps]
    split <;> simp
  | cons p ps ih =>
    intro prev hl
    obtain ⟨h1, h2, h3⟩ := hl
    simp only [gaps]
    rw [List.pairwise_append]
    refine ⟨by split <;> simp, ih _ h3, ?_⟩
    intro a ha b hb
    obtain ⟨g1, _, _⟩ := gaps_bounds ps _ b h3 hb
    split at ha
    · simp only [List.mem_singleton] at ha
      subst ha
      simp only
      omega
    · simp at ha

theorem holes_split (s : State) (hi : Inv s) :
    s.holes = holeList s ++ s.holes.drop s.numHoles ∧ s.numHoles = (holeList s).length := by
  refine ⟨by rw [holeList, List.take_append_drop], ?_⟩
  rw [hi.holesEq]; exact hi.numEq

theorem hole_size_le (s : State) (hi : Inv s) (h : Hole) (hm : h ∈ holeList s) :
    1 ≤ hsize h ∧ hsize h ≤ (MEMSIZE : Int) := by
  rw [hi.holesEq] at hm
  obtain ⟨h1, h2, h3⟩ := gaps_bounds _ _ h hi.core.laid hm
  simp only [hsize, MEMSIZE] at *
  omega

theorem maxHole_le (s : State) (hi : Inv s) : s.maxHole ≤ (MEMSIZE : Int) := by
  rcases foldMax_mem (gaps 0 (table s)) INT_MIN with h | ⟨h, hm, he⟩
  · rw [hi.maxEq, h]; simp [INT_MIN, MEMSIZE]
  · rw [hi.maxEq, ← he]
    rw [← hi.holesEq] at hm
    exact (hole_size_le s hi h hm).2

theorem maxHole_attained (s : State) (hi : Inv s) (k : Int) (hk1 : 1 ≤ k) (hk : k ≤ s.maxHole) :
    ∃ h ∈ holeList s, hsize h = s.maxHole := by
  rcases foldMax_mem (gaps 0 (table s)) INT_MIN with h | ⟨h, hm, he⟩
  · rw [← hi.maxEq] at h
    simp only [INT_MIN] at h
    omega
  · exact ⟨h, by rw [hi.holesEq]; exact hm, by rw [hi.maxEq]; exact he⟩

theorem hsize_le_maxHole (s : State) (hi : Inv s) (h : Hole) (hm : h ∈ holeList s) :
    hsize h ≤ s.maxHole := by
  rw [hi.maxEq]
  rw [hi.holesEq] at hm
  exact foldMax_ge _ _ h hm

/-! ## The three strategies -/

theorem request_F (s : State) (hi : Inv s) (n : Char) (k : Int) (hk1 : 1 ≤ k)
    (hk : k ≤ s.maxHole) :
    ∃ l1 h l2, holeList s = l1 ++ h :: l2 ∧ k ≤ hsize h ∧ (∀ x ∈ l1, hsize x < k) ∧
      request n k 'F' s = (allocate n h.begin k s, []) := by
  obtain ⟨hsplit, hnum⟩ := holes_split s hi
  obtain ⟨hm, hmm, hme⟩ := maxHole_attained s hi k hk1 hk
  rcases firstFit_spec0 k (holeList s) _ s.holes s.numHoles hsplit hnum with
    ⟨_, h2⟩ | ⟨l1, h, l2, h1, h2, h3, h4, h5⟩
  · have := (bigEnough_false_iff _ _).mp (h2 hm hmm)
    omega
  · refine ⟨l1, h, l2, h1, (bigEnough_iff _ _).mp h4,
      fun x hx => (bigEnough_false_iff _ _).mp (h5 x hx), ?_⟩
    have hgt : ¬ k > s.maxHole := by omega
    simp only [request, hgt, if_false, if_true, h2, h3]

theorem request_B (s : State) (hi : Inv s) (n : Char) (k : Int) (hk1 : 1 ≤ k)
    (hk : k ≤ s.maxHole) :
    ∃ l1 h l2, holeList s = l1 ++ h :: l2 ∧ k ≤ hsize h ∧
      (∀ x ∈ l1, k ≤ hsize x → hsize h < hsize x) ∧
      (∀ x ∈ l2, k ≤ hsize x → hsize h ≤ hsize x) ∧
      request n k 'B' s = (allocate n h.begin k s, []) := by
  obtain ⟨hsplit, hnum⟩ := holes_split s hi
  obtain ⟨hm, hmm, hme⟩ := maxHole_attained s hi k hk1 hk
  rcases bestFit_spec0 k (holeList s) _ s.holes s.numHoles INT_MAX (-1) hsplit hnum with
    ⟨_, h2⟩ | ⟨l1, h, l2, h1, h2, h3, h4, h5, h6, h7⟩
  · exfalso
    apply h2 hm hmm
    have := (hole_size_le s hi hm hmm).2
    refine ⟨(bigEnough_iff _ _).mpr (by omega), ?_⟩
    simp only [INT_MAX, MEMSIZE] at *
    omega
  · refine ⟨l1, h, l2, h1, (bigEnough_iff _ _).mp h4,
      fun x hx hb => h6 x hx ((bigEnough_iff _ _).mpr hb),
      fun x hx hb => h7 x hx ((bigEnough_iff _ _).mpr hb), ?_⟩
    have hgt : ¬ k > s.maxHole := by omega
    have hne : ¬ ('B' = 'F') := by decide
    have hpos : ((l1.length : Nat) : Int) > -1 := by omega
    simp only [request, hgt, if_false, hne, if_true, h2, hpos, Int.toNat_ofNat, h3]

theorem request_W (s : State) (hi : Inv s) (n : Char) (k : Int) (hk1 : 1 ≤ k)
    (hk : k ≤ s.maxHole) :
    ∃ l1 h l2, holeList s = l1 ++ h :: l2 ∧ hsize h = s.maxHole ∧
      (∀ x ∈ l1, hsize x ≠ s.maxHole) ∧
      request n k 'W' s = (allocate n h.begin k s, []) := by
  obtain ⟨hsplit, hnum⟩ := holes_split s hi
  obtain ⟨hm, hmm, hme⟩ := maxHole_attained s hi k hk1 hk
  rcases worstFit_spec0 k s.maxHole (holeList s) _ s.holes s.numHoles hsplit hnum with
    ⟨_, h2⟩ | ⟨l1, h, l2, h1, h2, h3, h4, h5⟩
  · exfalso
    exact h2 hm hmm ⟨(bigEnough_iff _ _).mpr (by omega), hme⟩
  · refine ⟨l1, h, l2, h1, h4.2, ?_, ?_⟩
    · intro x hx he
      exact h5 x hx ⟨(bigEnough_iff _ _).mpr (by omega), he⟩
    · have hgt : ¬ k > s.maxHole := by omega
      have hne : ¬ ('W' = 'F') := by decide
      have hne2 : ¬ ('W' = 'B') := by decide
      simp only [request, hgt, if_false, hne, hne2, if_true, h2, h3]

theorem request_inv (s : State) (hi : Inv s) (n : Char) (k : Int) (a : Char) (hk1 : 1 ≤ k) :
    Inv (request n k a s).1 := by
  by_cases hgt : k > s.maxHole
  · simp only [request, hgt, if_true]; exact hi
  · have hk : k ≤ s.maxHole := by omega
    by_cases hF : a = 'F'
    · subst hF
      obtain ⟨l1, h, l2, h1, h2, _, h4⟩ := request_F s hi n k hk1 hk
      rw [h4]
      exact (allocate_spec s hi n h (by rw [h1]; simp) k hk1 h2).1
    · by_cases hB : a = 'B'
      · subst hB
        obtain ⟨l1, h, l2, h1, h2, _, _, h4⟩ := request_B s hi n k hk1 hk
        rw [h4]
        exact (allocate_spec s hi n h (by rw [h1]; simp) k hk1 h2).1
      · by_cases hW : a = 'W'
        · subst hW
          obtain ⟨l1, h, l2, h1, h2, _, h4⟩ := request_W s hi n k hk1 hk
          rw [h4]
          exact (allocate_spec s hi n h (by rw [h1]; simp) k hk1 (by omega)).1
        · simp only [request, hgt, if_false, hF, hB, hW]; exact hi

/-! ## Release -/

theorem getD_succ_length_append {α : Type} (pre : List α) (x : α) (rest : List α) (d : α) :
    (pre ++ x :: rest).getD (pre.length + 1) d = rest.headD d := by
  cases rest with
  | nil =>
    rw [List.getD_eq_default]
    · rfl
    · simp
  | cons y r =>
    have h := getD_length_append (pre ++ [x]) y r d
    simp only [List.length_append, List.length_singleton, List.append_assoc,
      List.singleton_append] at h
    simpa using h

theorem shiftDown_spec (past : Process) (mid : List Process) :
    ∀ (pre : List Process) (x : Process) (post : List Process),
      shiftDown past (mid.length + 1) pre.length (pre ++ x :: mid ++ post) =
        pre ++ mid ++ post.headD past :: post := by
  induction mid with
  | nil =>
    intro pre x post
    have hget := getD_succ_length_append pre x post past
    have hset := set_length_append pre x (post.headD past) post
    simp only [List.length_nil, Nat.zero_add, shiftDown, List.append_nil] at *
    simp only [List.append_assoc, List.singleton_append, List.cons_append, List.nil_append]
    rw [hget, hset]
  | cons z mid ih =>
    intro pre x post
    have hget := getD_succ_length_append pre x (z :: mid ++ post) past
    have hset := set_length_append pre x z (z :: mid ++ post)
    have h1 := ih (pre ++ [z]) z post
    simp only [List.length_append, List.length_singleton, List.append_assoc,
      List.singleton_append, List.cons_append, List.nil_append] at h1
    simp only [List.append_assoc, List.cons_append, List.headD_cons, List.length_cons] at *
    rw [shiftDown, hget, hset, h1]

theorem laid_remove (l1 : List Process) :
    ∀ (prev : Int) (p : Process) (l2 : List Process),
      Laid prev (l1 ++ p :: l2) → Laid prev (l1 ++ l2) := by
  induction l1 with
  | nil =>
    intro prev p l2 h
    obtain ⟨h1, h2, h3⟩ := h
    exact laid_mono l2 _ prev h3 (by omega)
  | cons q l1 ih =>
    intro prev p l2 h
    obtain ⟨h1, h2, h3⟩ := h
    exact ⟨h1, h2, ih _ p l2 h3⟩

theorem laid_mem (ps : List Process) :
    ∀ (prev : Int) (p : Process), Laid prev ps → p ∈ ps →
      prev ≤ p.begin ∧ p.begin ≤ p.end_ ∧ p.end_ ≤ (MEMSIZE : Int) - 1 := by
  induction ps with
  | nil => intro prev p _ hm; simp at hm
  | cons q ps ih =>
    intro prev p h hm
    obtain ⟨h1, h2, h3⟩ := h
    rcases List.mem_cons.mp hm with rfl | hm
    · have := laid_le _ _ h3
      exact ⟨h1, h2, by omega⟩
    · obtain ⟨g1, g2, g3⟩ := ih _ p h3 hm
      exact ⟨by omega, g2, g3⟩

theorem releaseLoop_done (past : Process) (name : Char) (fuel i : Nat) (s : State)
    (h : ¬ i < s.allocations) : releaseLoop past name fuel i s = s := by
  cases fuel with
  | zero => rfl
  | succ f => simp only [releaseLoop, h, if_false]

theorem releaseAt_spec (past : Process) (s : State) (hi : Inv s) (pre : List Process)
    (p : Process) (suf : List Process) (htab : table s = pre ++ p :: suf) :
    s.processes.getD pre.length default = p ∧ pre.length < s.allocations ∧
    Inv (releaseAt past pre.length s) ∧ table (releaseAt past pre.length s) = pre ++ suf ∧
    (releaseAt past pre.length s).memory = fill s.memory '.' p.begin p.end_ := by
  have hc := hi.core
  have htl := table_length s hc.procLen hc.allocLe
  have hall : s.allocations = pre.length + suf.length + 1 := by
    rw [← htl, htab]; simp; omega
  have harr : s.processes = pre ++ p :: suf ++ s.processes.drop s.allocations := by
    rw [← htab, table, List.take_append_drop]
  have hget : s.processes.getD pre.length default = p := by
    rw [harr]
    simpa using getD_length_append pre p (suf ++ s.processes.drop s.allocations) default
  have hsub : s.allocations - pre.length = suf.length + 1 := by omega
  have hshift : shiftDown past (s.allocations - pre.length) pre.length s.processes =
      pre ++ suf ++ (s.processes.drop s.allocations).headD past :: s.processes.drop s.allocations := by
    rw [hsub]
    conv_lhs => rw [harr]
    exact shiftDown_spec past suf pre p _
  have hdl : (s.processes.drop s.allocations).length + s.allocations = MEMSIZE := by
    simp only [List.length_drop, hc.procLen]
    have := hc.allocLe
    omega
  have ht : table
      { s with
        memory := fill s.memory '.' p.begin p.end_
        processes := shiftDown past (s.allocations - pre.length) pre.length s.processes
        allocations := s.allocations - 1 } = pre ++ suf := by
    have e : ∀ t : State, table t = t.processes.take t.allocations := fun _ => rfl
    rw [e]
    simp only []
    rw [hshift, List.take_left' (by simp only [List.length_append]; omega)]
  have hcore : Core
      { s with
        memory := fill s.memory '.' p.begin p.end_
        processes := shiftDown past (s.allocations - pre.length) pre.length s.processes
        allocations := s.allocations - 1 } :=
    { memLen := by simp only [fill_length]; exact hc.memLen
      procLen := by
        simp only [hshift, List.length_append, List.length_cons]; omega
      holeLen := hc.holeLen
      allocLe := by have := hc.allocLe; simp only; omega
      laid := by
        rw [ht]
        have := hc.laid
        rw [htab] at this
        exact laid_remove pre 0 p suf this }
  refine ⟨hget, by omega, ?_, ?_, ?_⟩
  · simp only [releaseAt, hget]
    exact updateHoles_inv _ hcore
  · simp only [releaseAt, hget]
    rw [updateHoles_table _ hcore.procLen hcore.holeLen hcore.allocLe hcore.laid, ht]
  · simp only [releaseAt, hget]
    exact (updateHoles_spec _ hcore.procLen hcore.holeLen hcore.allocLe hcore.laid).1

theorem releaseLoop_spec (past : Process) (name : Char) (suf : List Process) :
    ∀ (fuel : Nat) (pre : List Process) (s : State), Inv s → table s = pre ++ suf →
      suf.length ≤ fuel →
      Inv (releaseLoop past name fuel pre.length s) ∧
      table (releaseLoop past name fuel pre.length s) =
        pre ++ suf.filter (fun p => p.name ≠ name) ∧
      ∀ a : Nat,
        (Freed name suf a → (releaseLoop past name fuel pre.length s).memory[a]? = some '.') ∧
        (¬ Freed name suf a →
          (releaseLoop past name fuel pre.length s).memory[a]? = s.memory[a]?) := by
  induction suf with
  | nil =>
    intro fuel pre s hi htab _
    have htl := table_length s hi.core.procLen hi.core.allocLe
    have hn : ¬ pre.length < s.allocations := by
      rw [← htl, htab]; simp
    rw [releaseLoop_done past name fuel _ s hn]
    refine ⟨hi, by simpa using htab, fun a => ⟨?_, fun _ => rfl⟩⟩
    rintro ⟨p, hp, _⟩
    simp at hp
  | cons p suf ih =>
    intro fuel pre s hi htab hfuel
    cases fuel with
    | zero => simp at hfuel
    | succ f =>
      have hf : suf.length ≤ f := by simpa using hfuel
      obtain ⟨hget, hlt, hinv, ht, hmem⟩ := releaseAt_spec past s hi pre p suf htab
      have hpb := laid_mem _ 0 p hi.core.laid (by rw [htab]; simp)
      simp only [releaseLoop, hlt, if_true, hget]
      by_cases hn : p.name = name
      · simp only [hn, if_true]
        obtain ⟨g1, g2, g3⟩ := ih f pre _ hinv ht hf
        refine ⟨g1, ?_, ?_⟩
        · rw [g2]; simp [hn]
        · intro a
          have hfill := fill_getElem? s.memory '.' p.begin p.end_ a
          rw [← hmem] at hfill
          by_cases hfr : Freed name suf a
          · refine ⟨fun _ => (g3 a).1 hfr, fun hnot => ?_⟩
            exfalso
            obtain ⟨q, hq, hq2⟩ := hfr
            exact hnot ⟨q, List.mem_cons_of_mem _ hq, hq2⟩
          · rw [(g3 a).2 hfr, hfill]
            constructor
            · rintro ⟨q, hq, hqn, hqs⟩
              rcases List.mem_cons.mp hq with rfl | hq
              · have hin : a < s.memory.length := by
                  rw [hi.core.memLen]
                  obtain ⟨h1, h2⟩ := hqs
                  simp only [MEMSIZE] at *
                  omega
                rw [if_pos ⟨hqs.1, hqs.2, hin⟩]
              · exact absurd ⟨q, hq, hqn, hqs⟩ hfr
            · intro hnot
              have : ¬ (p.begin ≤ (a : Int) ∧ (a : Int) ≤ p.end_ ∧ a < s.memory.length) := by
                rintro ⟨h1, h2, _⟩
                exact hnot ⟨p, List.mem_cons_self _ _, hn, h1, h2⟩
              rw [if_neg this]
      · simp only [hn, if_false]
        have hpl : pre.length + 1 = (pre ++ [p]).length := by simp
        rw [hpl]
        obtain ⟨g1, g2, g3⟩ := ih f (pre ++ [p]) s hi (by rw [htab]; simp) hf
        refine ⟨g1, ?_, ?_⟩
        · rw [g2]; simp [hn]
        · intro a
          have hiff : Freed name (p :: suf) a ↔ Freed name suf a := by
            constructor
            · rintro ⟨q, hq, hqn, hqs⟩
              rcases List.mem_cons.mp hq with rfl | hq
              · exact absurd hqn hn
              · exact ⟨q, hq, hqn, hqs⟩
            · rintro ⟨q, hq, hq2⟩
              exact ⟨q, List.mem_cons_of_mem _ hq, hq2⟩
          rw [hiff]
          exact g3 a

theorem releaseLoop_fuel (past : Process) (name : Char) (suf : List Process) :
    ∀ (f1 f2 : Nat) (pre : List Process) (s : State), Inv s → table s = pre ++ suf →
      suf.length ≤ f1 → suf.length ≤ f2 →
      releaseLoop past name f1 pre.length s = releaseLoop past name f2 pre.length s := by
  induction suf with
  | nil =>
    intro f1 f2 pre s hi htab _ _
    have htl := table_length s hi.core.procLen hi.core.allocLe
    have hn : ¬ pre.length < s.allocations := by
      rw [← htl, htab]; simp
    rw [releaseLoop_done past name f1 _ s hn, releaseLoop_done past name f2 _ s hn]
  | cons p suf ih =>
    intro f1 f2 pre s hi htab h1 h2
    cases f1 with
    | zero => simp at h1
    | succ g1 =>
      cases f2 with
      | zero => simp at h2
      | succ g2 =>
        have hg1 : suf.length ≤ g1 := by simpa using h1
        have hg2 : suf.length ≤ g2 := by simpa using h2
        obtain ⟨hget, hlt, hinv, ht, _⟩ := releaseAt_spec past s hi pre p suf htab
        simp only [releaseLoop, hlt, if_true, hget]
        by_cases hn : p.name = name
        · simp only [hn, if_true]
          exact ih g1 g2 pre _ hinv ht hg1 hg2
        · simp only [hn, if_false]
          have hpl : pre.length + 1 = (pre ++ [p]).length := by simp
          rw [hpl]
          exact ih g1 g2 (pre ++ [p]) s hi (by rw [htab]; simp) hg1 hg2

/-- More fuel than `allocations` does not change what `release` returns: the
loop of `release` ends because its condition `i < allocations` fails. -/
theorem release_fuel (past : Process) (name : Char) (s : State) (hi : Inv s) (fuel : Nat)
    (hf : s.allocations ≤ fuel) : releaseLoop past name fuel 0 s = release past name s := by
  have htl := table_length s hi.core.procLen hi.core.allocLe
  exact releaseLoop_fuel past name (table s) fuel s.allocations [] s hi rfl
    (by rw [htl]; exact hf) (by rw [htl])

theorem release_spec (past : Process) (name : Char) (s : State) (hi : Inv s) :
    Inv (release past name s) ∧
    table (release past name s) = (table s).filter (fun p => p.name ≠ name) ∧
    ∀ a : Nat,
      (Freed name (table s) a → (release past name s).memory[a]? = some '.') ∧
      (¬ Freed name (table s) a → (release past name s).memory[a]? = s.memory[a]?) := by
  have htl := table_length s hi.core.procLen hi.core.allocLe
  have h := releaseLoop_spec past name (table s) s.allocations [] s hi rfl (by rw [htl])
  simpa [release] using h

/-! ## Compaction -/

theorem compactLoop_spec (mid : List Process) :
    ∀ (pre post : List Process) (prev : Int),
      compactLoop mid.length pre.length prev (pre ++ mid ++ post) =
        pre ++ relocate prev mid ++ post := by
  induction mid with
  | nil => intro pre post prev; simp [compactLoop, relocate]
  | cons p mid ih =>
    intro pre post prev
    have hget := getD_length_append pre p (mid ++ post) default
    have hset := set_length_append pre p
      ⟨p.name, prev, prev + (p.end_ - p.begin)⟩ (mid ++ post)
    have h1 := ih (pre ++ [⟨p.name, prev, prev + (p.end_ - p.begin)⟩]) post
      (prev + (p.end_ - p.begin) + 1)
    simp only [List.length_append, List.length_singleton, List.append_assoc,
      List.singleton_append, List.cons_append, List.nil_append] at h1
    simp only [List.append_assoc, List.cons_append, List.length_cons, compactLoop, relocate] at *
    rw [hget, hset, h1]

theorem paintLoop_length (ps : List Process) (n : Nat) :
    ∀ (i : Nat) (m : List Char), (paintLoop ps n i m).length = m.length := by
  induction n with
  | zero => intro i m; rfl
  | succ n ih => intro i m; simp only [paintLoop, ih, fill_length]

theorem totalSize_le (ps : List Process) :
    ∀ prev : Int, Laid prev ps → prev + totalSize ps ≤ (MEMSIZE : Int) := by
  induction ps with
  | nil => intro prev h; simpa [totalSize] using h
  | cons p ps ih =>
    intro prev h
    obtain ⟨h1, h2, h3⟩ := h
    have := ih _ h3
    simp only [totalSize, psize]
    omega

theorem totalSize_nonneg (ps : List Process) :
    ∀ prev : Int, Laid prev ps → 0 ≤ totalSize ps := by
  induction ps with
  | nil => intro prev _; simp [totalSize]
  | cons p ps ih =>
    intro prev h
    obtain ⟨h1, h2, h3⟩ := h
    have := ih _ h3
    simp only [totalSize, psize]
    omega

theorem relocate_laid (ps : List Process) :
    ∀ prev : Int, (∀ p ∈ ps, p.begin ≤ p.end_) → prev + totalSize ps ≤ (MEMSIZE : Int) →
      Laid prev (relocate prev ps) := by
  induction ps with
  | nil => intro prev _ h; simpa [relocate, Laid, totalSize] using h
  | cons p ps ih =>
    intro prev hp h
    have hp1 := hp p (List.mem_cons_self _ _)
    simp only [totalSize, psize] at h
    simp only [relocate, Laid]
    refine ⟨le_refl _, by omega, ih _ (fun q hq => hp q (List.mem_cons_of_mem _ hq)) (by omega)⟩

theorem relocate_length (ps : List Process) : ∀ prev : Int, (relocate prev ps).length = ps.length := by
  induction ps with
  | nil => intro prev; rfl
  | cons p ps ih => intro prev; simp [relocate, ih]

theorem relocate_gaps (ps : List Process) :
    ∀ prev : Int, gaps prev (relocate prev ps) =
      if prev + totalSize ps ≤ (MEMSIZE : Int) - 1 then
        [⟨prev + totalSize ps, (MEMSIZE : Int) - 1⟩] else [] := by
  induction ps with
  | nil => intro prev; simp [relocate, gaps, totalSize]
  | cons p ps ih =>
    intro prev
    have e : prev + (p.end_ - p.begin) + 1 + totalSize ps = prev + totalSize (p :: ps) := by
      simp only [totalSize, psize]; omega
    simp only [relocate, gaps, gt_iff_lt, lt_self_iff_false, if_false, List.nil_append, ih, e]

theorem compact_spec (s : State) (hi : Inv s) :
    Inv (compact s) ∧ table (compact s) = relocate 0 (table s) := by
  have hc := hi.core
  have htl := table_length s hc.procLen hc.allocLe
  have harr : s.processes = [] ++ table s ++ s.processes.drop s.allocations := by
    simp [table]
  have hloop : compactLoop s.allocations 0 0 s.processes =
      relocate 0 (table s) ++ s.processes.drop s.allocations := by
    have h := compactLoop_spec (table s) [] (s.processes.drop s.allocations) 0
    rw [← harr, htl] at h
    simpa using h
  have hlaid : Laid 0 (relocate 0 (table s)) :=
    relocate_laid _ 0 (fun p hp => (laid_mem _ 0 p hc.laid hp).2.1) (totalSize_le _ 0 hc.laid)
  have hrl := relocate_length (table s) 0
  have e : ∀ t : State, table t = t.processes.take t.allocations := fun _ => rfl
  have ht : table
      { initializeMemory { s with processes := compactLoop s.allocations 0 0 s.processes } with
        memory := paintLoop
          (initializeMemory { s with processes := compactLoop s.allocations 0 0 s.processes }).processes
          (initializeMemory { s with processes := compactLoop s.allocations 0 0 s.processes }).allocations
          0
          (initializeMemory { s with processes := compactLoop s.allocations 0 0 s.processes }).memory } =
      relocate 0 (table s) := by
    rw [e]
    simp only [initializeMemory]
    rw [hloop, List.take_left' (by rw [hrl, htl])]
  have hcore : Core
      { initializeMemory { s with processes := compactLoop s.allocations 0 0 s.processes } with
        memory := paintLoop
          (initializeMemory { s with processes := compactLoop s.allocations 0 0 s.processes }).processes
          (initializeMemory { s with processes := compactLoop s.allocations 0 0 s.processes }).allocations
          0
          (initializeMemory { s with processes := compactLoop s.allocations 0 0 s.processes }).memory } :=
    { memLen := by
        simp only [initializeMemory, paintLoop_length, List.length_set, fill_length]
        exact hc.memLen
      procLen := by
        simp only [initializeMemory, hloop, List.length_append, hrl, htl, List.length_drop,
          hc.procLen]
        have := hc.allocLe
        omega
      holeLen := by simp only [initializeMemory, List.length_set]; exact hc.holeLen
      allocLe := by simp only [initializeMemory]; exact hc.allocLe
      laid := by rw [ht]; exact hlaid }
  refine ⟨updateHoles_inv _ hcore, ?_⟩
  show table (updateHoles _) = _
  rw [updateHoles_table _ hcore.procLen hcore.holeLen hcore.allocLe hcore.laid, ht]

/-! ## The invariant holds in every reachable state -/

theorem initializeMemory_memLen (s : State) :
    (initializeMemory s).memory.length = s.memory.length := by
  simp only [initializeMemory, List.length_set, fill_length]

theorem init_inv : Inv initState :=
  { core :=
      { memLen := by
          rw [initState, initializeMemory_memLen]
          simp only [zeroState, List.length_replicate]
        procLen := by simp only [initState, initializeMemory, zeroState, List.length_replicate]
        holeLen := by
          simp only [initState, initializeMemory, zeroState, List.length_set,
            List.length_replicate]
        allocLe := by decide
        laid := by simp [initState, initializeMemory, zeroState, table, Laid] }
    holesEq := by decide
    numEq := by decide
    maxEq := by decide }

theorem reachable_inv (s : State) (h : Reachable s) : Inv s := by
  induction h with
  | init => exact init_inv
  | request s name size algo _ hsize ih => exact request_inv s ih name size algo hsize
  | release s past name _ ih => exact (release_spec past name s ih).1
  | compact s _ ih => exact (compact_spec s ih).1

/-! ## Consequences of the invariant -/

theorem laid_pairwise (ps : List Process) :
    ∀ prev : Int, Laid prev ps → ps.Pairwise (fun p q => p.end_ < q.begin) := by
  induction ps with
  | nil => intro prev _; exact List.Pairwise.nil
  | cons p ps ih =>
    intro prev h
    obtain ⟨h1, h2, h3⟩ := h
    refine List.Pairwise.cons ?_ (ih _ h3)
    intro q hq
    have := (laid_mem ps _ q h3 hq).1
    omega

theorem gaps_complement (ps : List Process) :
    ∀ (prev a : Int), Laid prev ps → prev ≤ a → a ≤ (MEMSIZE : Int) - 1 →
      ((∃ h ∈ gaps prev ps, inHole a h) ↔ ¬ ∃ p ∈ ps, inSeg a p) := by
  induction ps with
  | nil =>
    intro prev a _ h1 h2
    have hp : prev ≤ (MEMSIZE : Int) - 1 := by omega
    simp only [gaps, hp, if_true, List.mem_singleton, exists_eq_left, inHole, List.not_mem_nil,
      false_and, exists_false, not_false_eq_true, iff_true]
    exact ⟨h1, h2⟩
  | cons p ps ih =>
    intro prev a hl h1 h2
    obtain ⟨g1, g2, g3⟩ := hl
    have hrest : ∀ h ∈ gaps (p.end_ + 1) ps, p.end_ + 1 ≤ h.begin :=
      fun h hh => (gaps_bounds ps _ h g3 hh).1
    have hsegs : ∀ q ∈ ps, p.end_ + 1 ≤ q.begin := fun q hq => (laid_mem ps _ q g3 hq).1
    simp only [gaps, List.mem_append, List.mem_cons, inSeg, inHole]
    by_cases ha : a < p.begin
    · have hgt : p.begin > prev := by omega
      simp only [hgt, if_true, List.mem_singleton]
      constructor
      · rintro _ ⟨q, rfl | hq, hq1, hq2⟩
        · omega
        · have := hsegs q hq; omega
      · intro _
        exact ⟨⟨prev, p.begin - 1⟩, Or.inl rfl, h1, by simp only; omega⟩
    · by_cases hb : a ≤ p.end_
      · constructor
        · rintro ⟨h, hh | hh, hh1, hh2⟩
          · split at hh
            · simp only [List.mem_singleton] at hh
              subst hh
              simp only at hh2
              omega
            · simp at hh
          · have := hrest h hh; omega
        · intro hnot
          exact absurd ⟨p, Or.inl rfl, by omega, hb⟩ hnot
      · have hih := ih (p.end_ + 1) a g3 (by omega) h2
        simp only [inSeg, inHole] at hih
        constructor
        · rintro ⟨h, hh | hh, hh1, hh2⟩
          · split at hh
            · simp only [List.mem_singleton] at hh
              subst hh
              simp only at hh2
              omega
            · simp at hh
          · have hn := hih.mp ⟨h, hh, hh1, hh2⟩
            rintro ⟨q, rfl | hq, hq1, hq2⟩
            · omega
            · exact hn ⟨q, hq, hq1, hq2⟩
        · intro hnot
          have : ¬ ∃ q ∈ ps, q.begin ≤ a ∧ a ≤ q.end_ := by
            rintro ⟨q, hq, hq1⟩
            exact hnot ⟨q, Or.inr hq, hq1⟩
          obtain ⟨h, hh, hh1⟩ := hih.mpr this
          exact ⟨h, Or.inr hh, hh1⟩

theorem relocate_getElem? (ps : List Process) :
    ∀ (prev : Int) (i : Nat) (p : Process), ps[i]? = some p →
      (relocate prev ps)[i]? =
        some ⟨p.name, prev + totalSize (ps.take i),
          prev + totalSize (ps.take i) + psize p - 1⟩ := by
  induction ps with
  | nil => intro prev i p h; simp at h
  | cons q ps ih =>
    intro prev i p h
    cases i with
    | zero =>
      simp only [List.getElem?_cons_zero, Option.some.injEq] at h
      subst h
      simp only [relocate, List.getElem?_cons_zero, List.take_zero, totalSize, psize,
        Option.some.injEq, Process.mk.injEq, true_and]
      omega
    | succ i =>
      simp only [List.getElem?_cons_succ] at h
      have := ih (prev + (q.end_ - q.begin) + 1) i p h
      simp only [relocate, List.getElem?_cons_succ, this, List.take_succ_cons, totalSize, psize,
        Option.some.injEq, Process.mk.injEq, true_and]
      omega

theorem totalSize_nonneg_of (ps : List Process) (hp : ∀ p ∈ ps, p.begin ≤ p.end_) :
    0 ≤ totalSize ps := by
  induction ps with
  | nil => simp [totalSize]
  | cons p ps ih =>
    have h1 := hp p (List.mem_cons_self _ _)
    have h2 := ih (fun q hq => hp q (List.mem_cons_of_mem _ hq))
    simp only [totalSize, psize]
    omega

theorem relocate_occupied (ps : List Process) :
    ∀ (prev a : Int), (∀ p ∈ ps, p.begin ≤ p.end_) →
      ((∃ q ∈ relocate prev ps, inSeg a q) ↔ prev ≤ a ∧ a < prev + totalSize ps) := by
  induction ps with
  | nil =>
    intro prev a _
    simp only [relocate, List.not_mem_nil, false_and, exists_false, totalSize, false_iff]
    omega
  | cons p ps ih =>
    intro prev a hp
    have hp1 := hp p (List.mem_cons_self _ _)
    have hih := ih (prev + (p.end_ - p.begin) + 1) a
      (fun q hq => hp q (List.mem_cons_of_mem _ hq))
    simp only [relocate, List.mem_cons, totalSize, psize, inSeg] at hih ⊢
    constructor
    · rintro ⟨q, rfl | hq, hq1, hq2⟩
      · have hnn := totalSize_nonneg_of ps (fun q hq => hp q (List.mem_cons_of_mem _ hq))
        simp only at hq1 hq2
        omega
      · have := hih.mp ⟨q, hq, hq1, hq2⟩
        omega
    · intro ⟨h1, h2⟩
      by_cases hin : a ≤ prev + (p.end_ - p.begin)
      · exact ⟨_, Or.inl rfl, h1, hin⟩
      · obtain ⟨q, hq, hq1⟩ := hih.mpr ⟨by omega, by omega⟩
        exact ⟨q, Or.inr hq, hq1⟩

theorem twoHoles_reachable : Reachable twoHoles :=
  Reachable.release _ _ _
    (Reachable.request _ _ _ _ (Reachable.request _ _ _ _ Reachable.init (by decide)) (by decide))

theorem fullState_reachable : Reachable fullState :=
  Reachable.request _ _ _ _ Reachable.init (by decide)

theorem placement_shape (s : State) (hi : Inv s) (n : Char) (h : Hole) (hm : h ∈ holeList s)
    (k : Int) (hk1 : 1 ≤ k) (hk : k ≤ hsize h) :
    ∃ l1 l2, table s = l1 ++ l2 ∧
      table (allocate n h.begin k s) = l1 ++ ⟨n, h.begin, h.begin + k - 1⟩ :: l2 := by
  obtain ⟨l1, l2, h1, h2⟩ := insertSeg_split ⟨n, h.begin, h.begin + k - 1⟩ (table s)
  exact ⟨l1, l2, h1, by rw [(allocate_spec s hi n h hm k hk1 hk).2.1, h2]⟩

theorem holes_order (s : State) (hi : Inv s) (l1 : List Hole) (h : Hole) (l2 : List Hole)
    (hsplit : holeList s = l1 ++ h :: l2) : ∀ x ∈ l2, h.begin < x.begin := by
  have hsorted := gaps_sorted _ 0 hi.core.laid
  rw [← hi.holesEq, hsplit] at hsorted
  have h2 := (List.pairwise_append.mp hsorted).2.1
  have h3 := (List.pairwise_cons.mp h2).1
  have hh := (hole_size_le s hi h (by rw [hsplit]; simp)).1
  intro x hx
  have := h3 x hx
  simp only [hsize] at hh
  omega

theorem maxHoleSize_nonneg (l : List Hole) : 0 ≤ maxHoleSize l := by
  induction l with
  | nil => exact le_refl _
  | cons h hs ih =>
    simp only [maxHoleSize]
    split <;> omega

theorem foldMax_eq (l : List Hole) :
    ∀ m : Int, 0 ≤ m → foldMax m l = if m > maxHoleSize l then m else maxHoleSize l := by
  induction l with
  | nil =>
    intro m hm
    simp only [foldMax, maxHoleSize]
    split <;> omega
  | cons h hs ih =>
    intro m hm
    have h0 := maxHoleSize_nonneg hs
    have hm1 : 0 ≤ max (hsize h) m := le_trans hm (max_ge_right _ _)
    simp only [foldMax, maxHoleSize]
    rw [ih _ hm1, max_def]
    split_ifs <;> omega

theorem maxHole_eq_maxHoleSize (s : State) (hi : Inv s) (hne : holeList s ≠ []) :
    s.maxHole = maxHoleSize (holeList s) := by
  rw [hi.maxEq, ← hi.holesEq]
  cases hl : holeList s with
  | nil => exact absurd hl hne
  | cons h hs =>
    have h1 := (hole_size_le s hi h (by rw [hl]; simp)).1
    have h0 := maxHoleSize_nonneg hs
    have : max (hsize h) INT_MIN = hsize h := by
      rw [max_def]; simp only [INT_MIN]; split <;> omega
    simp only [foldMax, maxHoleSize, this]
    rw [foldMax_eq hs _ (by omega)]

theorem firstFit_found (s : State) (hi : Inv s) (k : Int) (hk1 : 1 ≤ k) (hk : k ≤ s.maxHole) :
    (firstFit s.holes k s.numHoles 0).isSome = true := by
  obtain ⟨hsplit, hnum⟩ := holes_split s hi
  obtain ⟨hm, hmm, hme⟩ := maxHole_attained s hi k hk1 hk
  rcases firstFit_spec0 k (holeList s) _ s.holes s.numHoles hsplit hnum with
    ⟨_, h2⟩ | ⟨l1, h, l2, _, h2, _⟩
  · have := (bigEnough_false_iff _ _).mp (h2 hm hmm)
    omega
  · rw [h2]; rfl

theorem bestFit_found (s : State) (hi : Inv s) (k : Int) (hk1 : 1 ≤ k) (hk : k ≤ s.maxHole) :
    bestFit s.holes k s.numHoles 0 INT_MAX (-1) > -1 := by
  obtain ⟨hsplit, hnum⟩ := holes_split s hi
  obtain ⟨hm, hmm, hme⟩ := maxHole_attained s hi k hk1 hk
  rcases bestFit_spec0 k (holeList s) _ s.holes s.numHoles INT_MAX (-1) hsplit hnum with
    ⟨_, h2⟩ | ⟨l1, h, l2, _, h2, _⟩
  · exfalso
    apply h2 hm hmm
    have := (hole_size_le s hi hm hmm).2
    refine ⟨(bigEnough_iff _ _).mpr (by omega), ?_⟩
    simp only [INT_MAX, MEMSIZE] at *
    omega
  · rw [h2]; omega

theorem worstFit_found (s : State) (hi : Inv s) (k : Int) (hk1 : 1 ≤ k) (hk : k ≤ s.maxHole) :
    (worstFit s.holes k s.maxHole s.numHoles 0).isSome = true := by
  obtain ⟨hsplit, hnum⟩ := holes_split s hi
  obtain ⟨hm, hmm, hme⟩ := maxHole_attained s hi k hk1 hk
  rcases worstFit_spec0 k s.maxHole (holeList s) _ s.holes s.numHoles hsplit hnum with
    ⟨_, h2⟩ | ⟨l1, h, l2, _, h2, _⟩
  · exfalso
    exact h2 hm hmm ⟨(bigEnough_iff _ _).mpr (by omega), hme⟩
  · rw [h2]; rfl

theorem request_places (s : State) (hi : Inv s) (n : Char) (k : Int) (a : Char)
    (ha : a = 'F' ∨ a = 'B' ∨ a = 'W') (hk1 : 1 ≤ k) (hk : k ≤ s.maxHole) :
    ∃ b l1 l2, table s = l1 ++ l2 ∧
      table (request n k a s).1 = l1 ++ ⟨n, b, b + k - 1⟩ :: l2 := by
  rcases ha with rfl | rfl | rfl
  · obtain ⟨l1, h, l2, h1, h2, _, h4⟩ := request_F s hi n k hk1 hk
    obtain ⟨m1, m2, g1, g2⟩ := placement_shape s hi n h (by rw [h1]; simp) k hk1 h2
    exact ⟨h.begin, m1, m2, g1, by rw [h4]; exact g2⟩
  · obtain ⟨l1, h, l2, h1, h2, _, _, h4⟩ := request_B s hi n k hk1 hk
    obtain ⟨m1, m2, g1, g2⟩ := placement_shape s hi n h (by rw [h1]; simp) k hk1 h2
    exact ⟨h.begin, m1, m2, g1, by rw [h4]; exact g2⟩
  · obtain ⟨l1, h, l2, h1, h2, _, h4⟩ := request_W s hi n k hk1 hk
    obtain ⟨m1, m2, g1, g2⟩ := placement_shape s hi n h (by rw [h1]; simp) k hk1 (by omega)
    exact ⟨h.begin, m1, m2, g1, by rw [h4]; exact g2⟩

theorem splitOwner_reachable : Reachable splitOwner :=
  Reachable.request _ _ _ _
    (Reachable.request _ _ _ _ (Reachable.request _ _ _ _ Reachable.init (by decide))
      (by decide)) (by decide)

/-! ## The claims -/

/-- C1. First-fit placement: in every reachable state, for every owner `n` and
size `k` with `1 ≤ k ≤ maxHole`, there is a hole `h` of the current hole list
with `size h ≥ k` that lies below every other hole of size `≥ k`, and
`request n k 'F'` adds exactly the segment `{n, h.begin, h.begin + k - 1}` to
the process table, leaving the other segments and their order unchanged. -/
theorem C1_first_fit (s : State) (hs : Reachable s) (n : Char) (k : Int) (hk1 : 1 ≤ k)
    (hk : k ≤ s.maxHole) :
    ∃ h ∈ holeList s, k ≤ hsize h ∧
      (∀ x ∈ holeList s, k ≤ hsize x → x = h ∨ h.begin < x.begin) ∧
      ∃ l1 l2, table s = l1 ++ l2 ∧
        table (request n k 'F' s).1 = l1 ++ ⟨n, h.begin, h.begin + k - 1⟩ :: l2 := by
  have hi := reachable_inv s hs
  obtain ⟨l1, h, l2, h1, h2, h3, h4⟩ := request_F s hi n k hk1 hk
  have hm : h ∈ holeList s := by rw [h1]; simp
  refine ⟨h, hm, h2, ?_, ?_⟩
  · intro x hx hkx
    rw [h1] at hx
    rcases List.mem_append.mp hx with hx | hx
    · have := h3 x hx; omega
    · rcases List.mem_cons.mp hx with rfl | hx
      · left; rfl
      · right; exact holes_order s hi l1 h l2 h1 x hx
  · rw [h4]
    exact placement_shape s hi n h hm k hk1 h2

/-- Witness for C1: in the state with the holes `[0,19]` and `[50,79]`, a
first-fit request of size 25. -/
theorem C1_first_fit_witness :
    Reachable twoHoles ∧ (1 : Int) ≤ 25 ∧ (25 : Int) ≤ twoHoles.maxHole ∧
    ∃ h ∈ holeList twoHoles, (25 : Int) ≤ hsize h ∧
      (∀ x ∈ holeList twoHoles, (25 : Int) ≤ hsize x → x = h ∨ h.begin < x.begin) ∧
      ∃ l1 l2, table twoHoles = l1 ++ l2 ∧
        table (request 'C' 25 'F' twoHoles).1 = l1 ++ ⟨'C', h.begin, h.begin + 25 - 1⟩ :: l2 :=
  ⟨twoHoles_reachable, by decide, by decide,
    C1_first_fit twoHoles twoHoles_reachable 'C' 25 (by decide) (by decide)⟩

/-- C2. Best-fit placement: in every reachable state, for every owner `n` and
size `k` with `1 ≤ k ≤ maxHole`, there is a hole `h` with `size h ≥ k` whose
size is minimal among the holes of size `≥ k` and that lies below every other
hole of that same size, and `request n k 'B'` adds exactly the segment
`{n, h.begin, h.begin + k - 1}`, leaving the other segments unchanged. -/
theorem C2_best_fit (s : State) (hs : Reachable s) (n : Char) (k : Int) (hk1 : 1 ≤ k)
    (hk : k ≤ s.maxHole) :
    ∃ h ∈ holeList s, k ≤ hsize h ∧
      (∀ x ∈ holeList s, k ≤ hsize x → hsize h ≤ hsize x) ∧
      (∀ x ∈ holeList s, k ≤ hsize x → hsize x = hsize h → x = h ∨ h.begin < x.begin) ∧
      ∃ l1 l2, table s = l1 ++ l2 ∧
        table (request n k 'B' s).1 = l1 ++ ⟨n, h.begin, h.begin + k - 1⟩ :: l2 := by
  have hi := reachable_inv s hs
  obtain ⟨l1, h, l2, h1, h2, h3, h4, h5⟩ := request_B s hi n k hk1 hk
  have hm : h ∈ holeList s := by rw [h1]; simp
  refine ⟨h, hm, h2, ?_, ?_, ?_⟩
  · intro x hx hkx
    rw [h1] at hx
    rcases List.mem_append.mp hx with hx | hx
    · exact le_of_lt (h3 x hx hkx)
    · rcases List.mem_cons.mp hx with rfl | hx
      · exact le_refl _
      · exact h4 x hx hkx
  · intro x hx hkx he
    rw [h1] at hx
    rcases List.mem_append.mp hx with hx | hx
    · have := h3 x hx hkx; omega
    · rcases List.mem_cons.mp hx with rfl | hx
      · left; rfl
      · right; exact holes_order s hi l1 h l2 h1 x hx
  · rw [h5]
    exact placement_shape s hi n h hm k hk1 h2

/-- Witness for C2: in the state with the holes `[0,19]` (size 20) and
`[50,79]` (size 30), a best-fit request of size 10. -/
theorem C2_best_fit_witness :
    Reachable twoHoles ∧ (1 : Int) ≤ 10 ∧ (10 : Int) ≤ twoHoles.maxHole ∧
    ∃ h ∈ holeList twoHoles, (10 : Int) ≤ hsize h ∧
      (∀ x ∈ holeList twoHoles, (10 : Int) ≤ hsize x → hsize h ≤ hsize x) ∧
      (∀ x ∈ holeList twoHoles, (10 : Int) ≤ hsize x → hsize x = hsize h →
        x = h ∨ h.begin < x.begin) ∧
      ∃ l1 l2, table twoHoles = l1 ++ l2 ∧
        table (request 'C' 10 'B' twoHoles).1 = l1 ++ ⟨'C', h.begin, h.begin + 10 - 1⟩ :: l2 :=
  ⟨twoHoles_reachable, by decide, by decide,
    C2_best_fit twoHoles twoHoles_reachable 'C' 10 (by decide) (by decide)⟩

/-- C3, counterexample. After the command `A A 80 F` the pool is full: the state
is reachable, its hole list is empty, and the tracked `maxHole` is `INT_MIN`,
which is not the maximum hole size (`0` for an empty hole list). -/
theorem C3_counterexample :
    Reachable fullState ∧ holeList fullState = [] ∧ fullState.maxHole = -2147483648 ∧
    fullState.maxHole ≠ maxHoleSize (holeList fullState) :=
  ⟨fullState_reachable, by decide, by decide, by decide⟩

/-- C3, amended. Worst-fit placement: in every reachable state whose hole list
is non-empty the tracked `maxHole` is the maximum of the hole sizes (with an
empty hole list it is `INT_MIN`); and for every owner `n` and size `k` with
`1 ≤ k ≤ maxHole` there is a hole `h` of size `maxHole` that lies below every
other hole of that size and is a largest hole, and `request n k 'W'` adds
exactly the segment `{n, h.begin, h.begin + k - 1}`. -/
theorem C3_worst_fit (s : State) (hs : Reachable s) :
    (holeList s ≠ [] → s.maxHole = maxHoleSize (holeList s)) ∧
    (holeList s = [] → s.maxHole = INT_MIN) ∧
    ∀ (n : Char) (k : Int), 1 ≤ k → k ≤ s.maxHole →
      ∃ h ∈ holeList s, hsize h = s.maxHole ∧
        (∀ x ∈ holeList s, hsize x = s.maxHole → x = h ∨ h.begin < x.begin) ∧
        (∀ x ∈ holeList s, hsize x ≤ hsize h) ∧
        ∃ l1 l2, table s = l1 ++ l2 ∧
          table (request n k 'W' s).1 = l1 ++ ⟨n, h.begin, h.begin + k - 1⟩ :: l2 := by
  have hi := reachable_inv s hs
  refine ⟨maxHole_eq_maxHoleSize s hi, ?_, ?_⟩
  · intro he
    rw [hi.maxEq, ← hi.holesEq, he]
    rfl
  · intro n k hk1 hk
    obtain ⟨l1, h, l2, h1, h2, h3, h4⟩ := request_W s hi n k hk1 hk
    have hm : h ∈ holeList s := by rw [h1]; simp
    refine ⟨h, hm, h2, ?_, ?_, ?_⟩
    · intro x hx he
      rw [h1] at hx
      rcases List.mem_append.mp hx with hx | hx
      · exact absurd he (h3 x hx)
      · rcases List.mem_cons.mp hx with rfl | hx
        · left; rfl
        · right; exact holes_order s hi l1 h l2 h1 x hx
    · intro x hx
      rw [h2]
      exact hsize_le_maxHole s hi x hx
    · rw [h4]
      exact placement_shape s hi n h hm k hk1 (by omega)

/-- Witness for C3 (amended): in the state with the holes `[0,19]` (size 20)
and `[50,79]` (size 30), a worst-fit request of size 25. -/
theorem C3_worst_fit_witness :
    Reachable twoHoles ∧ holeList twoHoles ≠ [] ∧
    twoHoles.maxHole = maxHoleSize (holeList twoHoles) ∧
    (1 : Int) ≤ 25 ∧ (25 : Int) ≤ twoHoles.maxHole ∧
    ∃ h ∈ holeList twoHoles, hsize h = twoHoles.maxHole ∧
      (∀ x ∈ holeList twoHoles, hsize x = twoHoles.maxHole → x = h ∨ h.begin < x.begin) ∧
      (∀ x ∈ holeList twoHoles, hsize x ≤ hsize h) ∧
      ∃ l1 l2, table twoHoles = l1 ++ l2 ∧
        table (request 'C' 25 'W' twoHoles).1 = l1 ++ ⟨'C', h.begin, h.begin + 25 - 1⟩ :: l2 :=
  ⟨twoHoles_reachable, by decide,
    (C3_worst_fit twoHoles twoHoles_reachable).1 (by decide), by decide, by decide,
    (C3_worst_fit twoHoles twoHoles_reachable).2.2 'C' 25 (by decide) (by decide)⟩

/-- C4. Insufficient memory is rejected atomically: in every reachable state
`maxHole ≤ 80`, and for every owner, every strategy symbol and every size that
exceeds `maxHole` (in particular every size above 80) `request` prints
"Not enough memory" and returns the state unchanged. -/
theorem C4_insufficient_memory (s : State) (hs : Reachable s) :
    s.maxHole ≤ 80 ∧
    ∀ (n : Char) (k : Int) (a : Char), (k > s.maxHole ∨ k > 80) →
      request n k a s = (s, ["Not enough memory\n"]) := by
  have hi := reachable_inv s hs
  have hle : s.maxHole ≤ 80 := by
    have := maxHole_le s hi
    simpa [MEMSIZE] using this
  refine ⟨hle, ?_⟩
  intro n k a hk
  have hgt : k > s.maxHole := by omega
  simp only [request, hgt, if_true]

/-- Witness for C4: a request of size 81 in the initial state. -/
theorem C4_insufficient_memory_witness :
    Reachable initState ∧ initState.maxHole ≤ 80 ∧
    ((81 : Int) > initState.maxHole ∨ (81 : Int) > 80) ∧
    request 'A' 81 'X' initState = (initState, ["Not enough memory\n"]) :=
  ⟨Reachable.init, (C4_insufficient_memory initState Reachable.init).1, Or.inr (by decide),
    (C4_insufficient_memory initState Reachable.init).2 'A' 81 'X' (Or.inr (by decide))⟩

/-- C5. A request that passes the `maxHole` check always places: in every
reachable state, for every owner `n`, strategy `a` among `F`, `B`, `W` and size
`k` with `1 ≤ k ≤ maxHole`, the scan of the chosen strategy selects a hole
(the first-fit and worst-fit loops reach `allocate`, best-fit ends with
`minIndex > -1`), `allocations` grows by exactly one, and the table gains
exactly one segment, owned by `n` and of size `k`. -/
theorem C5_request_places (s : State) (hs : Reachable s) (n : Char) (k : Int) (a : Char)
    (ha : a = 'F' ∨ a = 'B' ∨ a = 'W') (hk1 : 1 ≤ k) (hk : k ≤ s.maxHole) :
    (a = 'F' → (firstFit s.holes k s.numHoles 0).isSome = true) ∧
    (a = 'B' → bestFit s.holes k s.numHoles 0 INT_MAX (-1) > -1) ∧
    (a = 'W' → (worstFit s.holes k s.maxHole s.numHoles 0).isSome = true) ∧
    (request n k a s).1.allocations = s.allocations + 1 ∧
    ∃ b l1 l2, table s = l1 ++ l2 ∧
      table (request n k a s).1 = l1 ++ ⟨n, b, b + k - 1⟩ :: l2 := by
  have hi := reachable_inv s hs
  have hi2 := request_inv s hi n k a hk1
  obtain ⟨b, l1, l2, g1, g2⟩ := request_places s hi n k a ha hk1 hk
  refine ⟨fun _ => firstFit_found s hi k hk1 hk, fun _ => bestFit_found s hi k hk1 hk,
    fun _ => worstFit_found s hi k hk1 hk, ?_, b, l1, l2, g1, g2⟩
  have t1 := table_length s hi.core.procLen hi.core.allocLe
  have t2 := table_length _ hi2.core.procLen hi2.core.allocLe
  rw [← t2, ← t1, g2, g1]
  simp only [List.length_append, List.length_cons]
  omega

/-- Witness for C5: a best-fit request of size 10 in the state with the holes
`[0,19]` and `[50,79]`. -/
theorem C5_request_places_witness :
    Reachable twoHoles ∧ ('B' = 'F' ∨ 'B' = 'B' ∨ 'B' = 'W') ∧ (1 : Int) ≤ 10 ∧
    (10 : Int) ≤ twoHoles.maxHole ∧
    (('B' = 'F' → (firstFit twoHoles.holes 10 twoHoles.numHoles 0).isSome = true) ∧
    ('B' = 'B' → bestFit twoHoles.holes 10 twoHoles.numHoles 0 INT_MAX (-1) > -1) ∧
    ('B' = 'W' →
      (worstFit twoHoles.holes 10 twoHoles.maxHole twoHoles.numHoles 0).isSome = true) ∧
    (request 'C' 10 'B' twoHoles).1.allocations = twoHoles.allocations + 1 ∧
    ∃ b l1 l2, table twoHoles = l1 ++ l2 ∧
      table (request 'C' 10 'B' twoHoles).1 = l1 ++ ⟨'C', b, b + 10 - 1⟩ :: l2) :=
  ⟨twoHoles_reachable, by decide, by decide, by decide,
    C5_request_places twoHoles twoHoles_reachable 'C' 10 'B' (by decide) (by decide)
      (by decide)⟩

/-- C6. `release` removes every segment of the owner: in every reachable state,
for every owner `n` (and whatever the read one past the table yields), after
`release n` the process table is the previous table without the segments named
`n`, the others in their previous order; every memory cell inside a removed
segment holds `'.'`, every other cell of `memory` is unchanged; and the hole
list and `maxHole` are those that `updateHoles` rebuilds from the new table. -/
theorem C6_release (s : State) (hs : Reachable s) (past : Process) (n : Char) :
    table (release past n s) = (table s).filter (fun p => p.name ≠ n) ∧
    (∀ a : Nat, Freed n (table s) a → (release past n s).memory[a]? = some '.') ∧
    (∀ a : Nat, ¬ Freed n (table s) a → (release past n s).memory[a]? = s.memory[a]?) ∧
    holeList (release past n s) = holeList (updateHoles (release past n s)) ∧
    (release past n s).maxHole = (updateHoles (release past n s)).maxHole := by
  have hi := reachable_inv s hs
  obtain ⟨h1, h2, h3⟩ := release_spec past n s hi
  obtain ⟨_, _, _, _, g5, _, g7⟩ :=
    updateHoles_spec _ h1.core.procLen h1.core.holeLen h1.core.allocLe h1.core.laid
  exact ⟨h2, fun a => (h3 a).1, fun a => (h3 a).2, by rw [g5, h1.holesEq],
    by rw [g7, h1.maxEq]⟩

/-- Witness for C6: releasing `A`, which owns two separate segments. -/
theorem C6_release_witness :
    Reachable splitOwner ∧
    table (release default 'A' splitOwner) = (table splitOwner).filter (fun p => p.name ≠ 'A') ∧
    (∀ a : Nat, Freed 'A' (table splitOwner) a →
      (release default 'A' splitOwner).memory[a]? = some '.') ∧
    (∀ a : Nat, ¬ Freed 'A' (table splitOwner) a →
      (release default 'A' splitOwner).memory[a]? = splitOwner.memory[a]?) ∧
    holeList (release default 'A' splitOwner) =
      holeList (updateHoles (release default 'A' splitOwner)) ∧
    (release default 'A' splitOwner).maxHole =
      (updateHoles (release default 'A' splitOwner)).maxHole :=
  ⟨splitOwner_reachable, C6_release splitOwner splitOwner_reachable default 'A'⟩

/-- C7. `compact` lays the segments out contiguously from address 0: in every
reachable state, after `compact` the table has the same number of segments;
the `i`-th segment keeps its owner, begins at the sum of the sizes of the
segments before it and ends at `begin + size - 1` for its original size; and
the occupied addresses are exactly `0 .. S - 1` for the total allocated size
`S`. -/
theorem C7_compact_layout (s : State) (hs : Reachable s) :
    (table (compact s)).length = (table s).length ∧
    (∀ (i : Nat) (p : Process), (table s)[i]? = some p →
      (table (compact s))[i]? =
        some ⟨p.name, totalSize ((table s).take i),
          totalSize ((table s).take i) + psize p - 1⟩) ∧
    (∀ a : Int, (∃ q ∈ table (compact s), inSeg a q) ↔ 0 ≤ a ∧ a < totalSize (table s)) := by
  have hi := reachable_inv s hs
  obtain ⟨_, h2⟩ := compact_spec s hi
  rw [h2]
  refine ⟨relocate_length _ 0, ?_, ?_⟩
  · intro i p hp
    have := relocate_getElem? (table s) 0 i p hp
    simpa using this
  · intro a
    have := relocate_occupied (table s) 0 a (fun p hp => (laid_mem _ 0 p hi.core.laid hp).2.1)
    simpa using this

/-- Witness for C7: compaction of the state that holds `A:[0,9]`, `B:[10,19]`,
`A:[20,29]` after `B` was released. -/
theorem C7_compact_layout_witness :
    Reachable (release default 'B' splitOwner) ∧
    (table (compact (release default 'B' splitOwner))).length =
      (table (release default 'B' splitOwner)).length ∧
    (∀ (i : Nat) (p : Process), (table (release default 'B' splitOwner))[i]? = some p →
      (table (compact (release default 'B' splitOwner)))[i]? =
        some ⟨p.name, totalSize ((table (release default 'B' splitOwner)).take i),
          totalSize ((table (release default 'B' splitOwner)).take i) + psize p - 1⟩) ∧
    (∀ a : Int, (∃ q ∈ table (compact (release default 'B' splitOwner)), inSeg a q) ↔
      0 ≤ a ∧ a < totalSize (table (release default 'B' splitOwner))) :=
  ⟨Reachable.release _ _ _ splitOwner_reachable,
    C7_compact_layout _ (Reachable.release _ _ _ splitOwner_reachable)⟩

/-- C8. `compact` leaves a single trailing hole: in every reachable state with
total allocated size `S` we have `S ≤ 80`; after `compact` the hole list is
`[[S, 79]]` with `maxHole = 80 - S` when `S < 80` and is empty when `S = 80`;
there is never more than one hole and it ends at address 79. -/
theorem C8_compact_hole (s : State) (hs : Reachable s) :
    totalSize (table s) ≤ 80 ∧
    (totalSize (table s) < 80 →
      holeList (compact s) = [⟨totalSize (table s), 79⟩] ∧
      (compact s).maxHole = 80 - totalSize (table s)) ∧
    (totalSize (table s) = 80 → holeList (compact s) = []) ∧
    (holeList (compact s)).length ≤ 1 ∧ ∀ h ∈ holeList (compact s), h.end_ = 79 := by
  have hi := reachable_inv s hs
  obtain ⟨h1, h2⟩ := compact_spec s hi
  have hle := totalSize_le _ 0 hi.core.laid
  have hg := relocate_gaps (table s) 0
  simp only [MEMSIZE, Nat.cast_ofNat, zero_add] at hle hg
  have hh := h1.holesEq
  have hm := h1.maxEq
  rw [h2, hg] at hh hm
  refine ⟨hle, ?_, ?_, ?_, ?_⟩
  · intro hlt
    have hc : totalSize (table s) ≤ 80 - 1 := by omega
    rw [if_pos hc] at hh hm
    refine ⟨by rw [hh]; norm_num, ?_⟩
    rw [hm]
    simp only [foldMax, hsize, max_def, INT_MIN]
    split <;> omega
  · intro he
    have hc : ¬ totalSize (table s) ≤ 80 - 1 := by omega
    rw [if_neg hc] at hh
    exact hh
  · rw [hh]; split <;> simp
  · intro h hmem
    rw [hh] at hmem
    split at hmem
    · simp only [List.mem_singleton] at hmem
      rw [hmem]
      norm_num
    · simp at hmem

/-- Witness for C8: compaction of the state with the holes `[0,19]` and
`[50,79]` around `B:[20,49]`. -/
theorem C8_compact_hole_witness :
    Reachable twoHoles ∧ totalSize (table twoHoles) ≤ 80 ∧
    (totalSize (table twoHoles) < 80 →
      holeList (compact twoHoles) = [⟨totalSize (table twoHoles), 79⟩] ∧
      (compact twoHoles).maxHole = 80 - totalSize (table twoHoles)) ∧
    (totalSize (table twoHoles) = 80 → holeList (compact twoHoles) = []) ∧
    (holeList (compact twoHoles)).length ≤ 1 ∧ ∀ h ∈ holeList (compact twoHoles), h.end_ = 79 :=
  ⟨twoHoles_reachable, C8_compact_hole twoHoles twoHoles_reachable⟩

/-- C9. Segment invariant: in every reachable state every segment satisfies
`0 ≤ begin ≤ end ≤ 79`, no address lies in two segments of the table, and the
table is sorted strictly ascending by `begin`. -/
theorem C9_segment_invariant (s : State) (hs : Reachable s) :
    (∀ p ∈ table s, 0 ≤ p.begin ∧ p.begin ≤ p.end_ ∧ p.end_ ≤ 79) ∧
    (table s).Pairwise (fun p q => ∀ a : Int, ¬ (inSeg a p ∧ inSeg a q)) ∧
    (table s).Pairwise (fun p q => p.begin < q.begin) := by
  have hi := reachable_inv s hs
  have hmem := laid_mem (table s) 0
  have hpw := laid_pairwise (table s) 0 hi.core.laid
  refine ⟨?_, ?_, ?_⟩
  · intro p hp
    have := hmem p hi.core.laid hp
    simpa [MEMSIZE] using this
  · refine hpw.imp ?_
    intro p q hpq a ha
    obtain ⟨⟨_, h2⟩, ⟨h3, _⟩⟩ := ha
    omega
  · refine hpw.imp_of_mem ?_
    intro p q hp _ hpq
    have := (hmem p hi.core.laid hp).2.1
    omega

/-- Witness for C9: the state that holds `A:[0,9]`, `B:[10,19]`, `A:[20,29]`. -/
theorem C9_segment_invariant_witness :
    Reachable splitOwner ∧
    (∀ p ∈ table splitOwner, 0 ≤ p.begin ∧ p.begin ≤ p.end_ ∧ p.end_ ≤ 79) ∧
    (table splitOwner).Pairwise (fun p q => ∀ a : Int, ¬ (inSeg a p ∧ inSeg a q)) ∧
    (table splitOwner).Pairwise (fun p q => p.begin < q.begin) :=
  ⟨splitOwner_reachable, C9_segment_invariant splitOwner splitOwner_reachable⟩

/-- C10. Hole invariant: in every reachable state the hole list is sorted
ascending by `begin`; every hole lies inside `0 .. 79`; an address in `0 .. 79`
lies in some hole exactly when it lies in no segment; no two listed holes are
adjacent or overlapping (a later hole begins beyond the cell after the end of
an earlier one); and no hole is empty. -/
theorem C10_hole_invariant (s : State) (hs : Reachable s) :
    (holeList s).Pairwise (fun a b => a.begin < b.begin) ∧
    (∀ h ∈ holeList s, 0 ≤ h.begin ∧ h.end_ ≤ 79) ∧
    (∀ a : Int, 0 ≤ a → a ≤ 79 →
      ((∃ h ∈ holeList s, inHole a h) ↔ ¬ ∃ p ∈ table s, inSeg a p)) ∧
    (holeList s).Pairwise (fun a b => a.end_ + 1 < b.begin) ∧
    (∀ h ∈ holeList s, h.begin ≤ h.end_) := by
  have hi := reachable_inv s hs
  have hb := gaps_bounds (table s) 0
  have hsorted := gaps_sorted (table s) 0 hi.core.laid
  rw [hi.holesEq]
  refine ⟨?_, ?_, ?_, hsorted, ?_⟩
  · refine hsorted.imp_of_mem ?_
    intro x y hx _ hxy
    have := (hb x hi.core.laid hx).2.1
    omega
  · intro h hh
    have := hb h hi.core.laid hh
    simp only [MEMSIZE] at this
    omega
  · intro a h0 h1
    exact gaps_complement (table s) 0 a hi.core.laid h0 (by simp only [MEMSIZE]; omega)
  · intro h hh
    exact (hb h hi.core.laid hh).2.1

/-- Witness for C10: the state with the holes `[0,19]` and `[50,79]` around
`B:[20,49]`. -/
theorem C10_hole_invariant_witness :
    Reachable twoHoles ∧
    (holeList twoHoles).Pairwise (fun a b => a.begin < b.begin) ∧
    (∀ h ∈ holeList twoHoles, 0 ≤ h.begin ∧ h.end_ ≤ 79) ∧
    (∀ a : Int, 0 ≤ a → a ≤ 79 →
      ((∃ h ∈ holeList twoHoles, inHole a h) ↔ ¬ ∃ p ∈ table twoHoles, inSeg a p)) ∧
    (holeList twoHoles).Pairwise (fun a b => a.end_ + 1 < b.begin) ∧
    (∀ h ∈ holeList twoHoles, h.begin ≤ h.end_) :=
  ⟨twoHoles_reachable, C10_hole_invariant twoHoles twoHoles_reachable⟩

/-! ## Further consequences of the invariant -/

theorem holesSize_append (a b : List Hole) :
    holesSize (a ++ b) = holesSize a + holesSize b := by
  induction a with
  | nil => simp [holesSize]
  | cons h a ih =>
    show hsize h + holesSize (a ++ b) = hsize h + holesSize a + holesSize b
    rw [ih]; omega

theorem gaps_total (ps : List Process) :
    ∀ prev : Int, Laid prev ps →
      totalSize ps + holesSize (gaps prev ps) = (MEMSIZE : Int) - prev := by
  induction ps with
  | nil =>
    intro prev h
    simp only [Laid, MEMSIZE] at h
    simp only [gaps, totalSize, MEMSIZE]
    split
    · simp only [holesSize, hsize]; omega
    · simp only [holesSize]; omega
  | cons p ps ih =>
    intro prev h
    obtain ⟨h1, h2, h3⟩ := h
    have := ih _ h3
    simp only [gaps, totalSize, psize, holesSize_append]
    split
    · simp only [holesSize, hsize]; omega
    · simp only [holesSize]; omega

theorem releaseLoop_absent (past : Process) (name : Char) (suf : List Process) :
    ∀ (fuel : Nat) (pre : List Process) (s : State), Inv s → table s = pre ++ suf →
      (∀ p ∈ suf, p.name ≠ name) → releaseLoop past name fuel pre.length s = s := by
  induction suf with
  | nil =>
    intro fuel pre s hi htab _
    have htl := table_length s hi.core.procLen hi.core.allocLe
    have hn : ¬ pre.length < s.allocations := by
      rw [← htl, htab]; simp
    exact releaseLoop_done past name fuel _ s hn
  | cons p suf ih =>
    intro fuel pre s hi htab hne
    cases fuel with
    | zero => rfl
    | succ f =>
      obtain ⟨hget, hlt, _⟩ := releaseAt_spec past s hi pre p suf htab
      have hp : ¬ p.name = name := hne p (List.mem_cons_self _ _)
      simp only [releaseLoop, hlt, if_true, hget, hp, if_false]
      have hpl : pre.length + 1 = (pre ++ [p]).length := by simp
      rw [hpl]
      exact ih f (pre ++ [p]) s hi (by rw [htab]; simp)
        (fun q hq => hne q (List.mem_cons_of_mem _ hq))

/-! ## The claims, continued -/

/-- C11, counterexample. After the command `A A 80 F` the hole list is empty and
`maxHole` is `INT_MIN = -2147483648`, not `0`. -/
theorem C11_counterexample :
    Reachable fullState ∧ holeList fullState = [] ∧ fullState.maxHole ≠ 0 ∧
    fullState.maxHole = INT_MIN :=
  ⟨fullState_reachable, by decide, by decide, by decide⟩

/-- C11, amended. `maxHole` invariant: in every reachable state `maxHole` is an
upper bound of the sizes of the listed holes; when the hole list is non-empty
it is the size of a listed hole, hence the maximum of the hole sizes; when the
hole list is empty (memory completely allocated) it is `INT_MIN`; and when
nothing is allocated it is `80`. -/
theorem C11_maxHole_invariant (s : State) (hs : Reachable s) :
    (∀ h ∈ holeList s, hsize h ≤ s.maxHole) ∧
    (holeList s ≠ [] → (∃ h ∈ holeList s, hsize h = s.maxHole) ∧
      s.maxHole = maxHoleSize (holeList s)) ∧
    (holeList s = [] → s.maxHole = INT_MIN) ∧
    (table s = [] → s.maxHole = 80) := by
  have hi := reachable_inv s hs
  refine ⟨fun h hh => hsize_le_maxHole s hi h hh, ?_, ?_, ?_⟩
  · intro hne
    refine ⟨?_, maxHole_eq_maxHoleSize s hi hne⟩
    rcases foldMax_mem (gaps 0 (table s)) INT_MIN with h | ⟨h, hm, he⟩
    · exfalso
      cases hl : holeList s with
      | nil => exact hne hl
      | cons x xs =>
        have hx : x ∈ holeList s := by rw [hl]; simp
        have h1 := (hole_size_le s hi x hx).1
        have h2 := hsize_le_maxHole s hi x hx
        rw [hi.maxEq, h] at h2
        simp only [INT_MIN] at h2
        omega
    · exact ⟨h, by rw [hi.holesEq]; exact hm, by rw [hi.maxEq]; exact he⟩
  · intro he
    rw [hi.maxEq, ← hi.holesEq, he]
    rfl
  · intro ht
    rw [hi.maxEq, ht]
    decide

/-- Witness for C11 (amended): the state with the holes `[0,19]` and `[50,79]`,
where `maxHole = 30`. -/
theorem C11_maxHole_invariant_witness :
    Reachable twoHoles ∧ holeList twoHoles ≠ [] ∧
    (∀ h ∈ holeList twoHoles, hsize h ≤ twoHoles.maxHole) ∧
    ((∃ h ∈ holeList twoHoles, hsize h = twoHoles.maxHole) ∧
      twoHoles.maxHole = maxHoleSize (holeList twoHoles)) ∧
    twoHoles.maxHole = 30 :=
  ⟨twoHoles_reachable, by decide, (C11_maxHole_invariant twoHoles twoHoles_reachable).1,
    (C11_maxHole_invariant twoHoles twoHoles_reachable).2.1 (by decide), by decide⟩

/-- C12. Conservation of capacity: in every reachable state the sum of the
segment sizes plus the sum of the hole sizes is `80`. -/
theorem C12_conservation (s : State) (hs : Reachable s) :
    totalSize (table s) + holesSize (holeList s) = 80 := by
  have hi := reachable_inv s hs
  have := gaps_total (table s) 0 hi.core.laid
  rw [hi.holesEq]
  simpa [MEMSIZE] using this

/-- Witness for C12: the state with `B:[20,49]` and the holes `[0,19]`,
`[50,79]`. -/
theorem C12_conservation_witness :
    Reachable twoHoles ∧ totalSize (table twoHoles) + holesSize (holeList twoHoles) = 80 :=
  ⟨twoHoles_reachable, C12_conservation twoHoles twoHoles_reachable⟩

/-- C13. An unknown strategy is rejected atomically: in every reachable state,
for every owner `n`, size `k` with `1 ≤ k ≤ maxHole` and strategy symbol other
than `F`, `B`, `W`, `request` prints "Unknown algorithm" and returns the state
unchanged. -/
theorem C13_unknown_algorithm (s : State) (_hs : Reachable s) (n : Char) (k : Int) (a : Char)
    (_hk1 : 1 ≤ k) (hk : k ≤ s.maxHole) (hF : a ≠ 'F') (hB : a ≠ 'B') (hW : a ≠ 'W') :
    request n k a s = (s, ["Unknown algorithm\n"]) := by
  have hgt : ¬ k > s.maxHole := by omega
  simp only [request, hgt, if_false, hF, hB, hW]

/-- Witness for C13: strategy symbol `X` in the state with the holes `[0,19]`
and `[50,79]`. -/
theorem C13_unknown_algorithm_witness :
    Reachable twoHoles ∧ (1 : Int) ≤ 10 ∧ (10 : Int) ≤ twoHoles.maxHole ∧
    'X' ≠ 'F' ∧ 'X' ≠ 'B' ∧ 'X' ≠ 'W' ∧
    request 'C' 10 'X' twoHoles = (twoHoles, ["Unknown algorithm\n"]) :=
  ⟨twoHoles_reachable, by decide, by decide, by decide, by decide, by decide,
    C13_unknown_algorithm twoHoles twoHoles_reachable 'C' 10 'X' (by decide) (by decide)
      (by decide) (by decide) (by decide)⟩

/-- C14. `release` of an absent owner is a no-op: in every reachable state, for
every owner `n` that owns no segment of the table, `release n` returns the
state unchanged (memory, process table, hole list, `maxHole` and all else). -/
theorem C14_release_absent (s : State) (hs : Reachable s) (past : Process) (n : Char)
    (hn : ∀ p ∈ table s, p.name ≠ n) : release past n s = s := by
  have hi := reachable_inv s hs
  exact releaseLoop_absent past n (table s) s.allocations [] s hi rfl hn

/-- Witness for C14: releasing `Z` in the state that holds only `B:[20,49]`. -/
theorem C14_release_absent_witness :
    Reachable twoHoles ∧ (∀ p ∈ table twoHoles, p.name ≠ 'Z') ∧
    release default 'Z' twoHoles = twoHoles :=
  ⟨twoHoles_reachable, by decide,
    C14_release_absent twoHoles twoHoles_reachable default 'Z' (by decide)⟩

/-- C16. The end-to-end scenario of the specification: from the initial state
(one hole `[0,79]`, `maxHole = 80`), `A A 20 F` gives `A:[0,19]`, holes
`[[20,79]]`, `maxHole = 60`; `A B 30 B` gives `B:[20,49]`, holes `[[50,79]]`,
`maxHole = 30`; `F A` gives holes `[[0,19],[50,79]]`, `maxHole = 30`;
`A C 25 W` gives `C:[50,74]`, holes `[[0,19],[75,79]]` and the display
20 `.`, 30 `B`, 25 `C`, 5 `.`; `C` gives `B:[0,29]`, `C:[30,54]`, the single
hole `[55,79]` and the display 30 `B`, 25 `C`, 25 `.`. -/
theorem C16_scenario :
    (table initState = [] ∧ holeList initState = [⟨0, 79⟩] ∧ initState.maxHole = 80) ∧
    (table scenario1 = [⟨'A', 0, 19⟩] ∧ holeList scenario1 = [⟨20, 79⟩] ∧
      scenario1.maxHole = 60) ∧
    (table scenario2 = [⟨'A', 0, 19⟩, ⟨'B', 20, 49⟩] ∧ holeList scenario2 = [⟨50, 79⟩] ∧
      scenario2.maxHole = 30) ∧
    (table scenario3 = [⟨'B', 20, 49⟩] ∧ holeList scenario3 = [⟨0, 19⟩, ⟨50, 79⟩] ∧
      scenario3.maxHole = 30) ∧
    (table scenario4 = [⟨'B', 20, 49⟩, ⟨'C', 50, 74⟩] ∧
      holeList scenario4 = [⟨0, 19⟩, ⟨75, 79⟩] ∧
      shown scenario4 = List.replicate 20 '.' ++ List.replicate 30 'B' ++
        List.replicate 25 'C' ++ List.replicate 5 '.') ∧
    (table scenario5 = [⟨'B', 0, 29⟩, ⟨'C', 30, 54⟩] ∧ holeList scenario5 = [⟨55, 79⟩] ∧
      shown scenario5 = List.replicate 30 'B' ++ List.replicate 25 'C' ++
        List.replicate 25 '.') := by
  refine ⟨⟨?_, ?_, ?_⟩, ⟨?_, ?_, ?_⟩, ⟨?_, ?_, ?_⟩, ⟨?_, ?_, ?_⟩, ⟨?_, ?_, ?_⟩, ⟨?_, ?_, ?_⟩⟩ <;>
    decide!

/-! ## Input normalisation -/

theorem upper_eq_toUpper (c : Char) : upper c = c.toUpper := rfl

theorem upper_ne_NUL (c : Char) (h : c ≠ NUL) : upper c ≠ NUL := by
  unfold upper
  split
  · rename_i hc
    have h1 : 'a'.toNat = 97 := rfl
    have h2 : 'z'.toNat = 122 := rfl
    rw [h1, h2] at hc
    obtain ⟨ha, hz⟩ := hc
    generalize c.toNat = n at ha hz
    interval_cases n <;> decide
  · exact h

theorem makeUppercaseLoop_tail (rest : List Char) (mid : List Char) :
    ∀ (pre : List Char) (fuel : Nat), pre ≠ [] → (∀ c ∈ mid, c ≠ NUL) → mid.length ≤ fuel →
      makeUppercaseLoop fuel pre.length (pre ++ mid ++ NUL :: rest) =
        pre ++ mid.map upper ++ NUL :: rest := by
  induction mid with
  | nil =>
    intro pre fuel _ _ _
    cases fuel with
    | zero => simp [makeUppercaseLoop]
    | succ f =>
      have hget : (pre ++ [] ++ NUL :: rest).getD pre.length NUL = NUL := by
        simpa using getD_length_append pre NUL rest NUL
      simp only [makeUppercaseLoop, hget, if_true, List.map_nil]
  | cons c mid ih =>
    intro pre fuel hpre hmid hfuel
    cases fuel with
    | zero => simp at hfuel
    | succ f =>
      have hc : c ≠ NUL := hmid c (List.mem_cons_self _ _)
      have hget : (pre ++ c :: mid ++ NUL :: rest).getD pre.length NUL = c := by
        simpa using getD_length_append pre c (mid ++ NUL :: rest) NUL
      have hset : (pre ++ c :: mid ++ NUL :: rest).set pre.length (upper c) =
          (pre ++ [upper c]) ++ mid ++ NUL :: rest := by
        have := set_length_append pre c (upper c) (mid ++ NUL :: rest)
        simp only [List.append_assoc, List.cons_append, List.nil_append] at this ⊢
        exact this
      have hi0 : ¬ (pre.length = 0 ∧ (c = 'r' ∨ c = 'R')) := by
        intro h
        exact hpre (List.length_eq_zero.mp h.1)
      have hpl : pre.length + 1 = (pre ++ [upper c]).length := by simp
      simp only [makeUppercaseLoop, hget, hc, if_false, hi0, hset]
      rw [hpl, ih (pre ++ [upper c]) f (by simp)
        (fun x hx => hmid x (List.mem_cons_of_mem _ hx)) (by simpa using hfuel)]
      simp

theorem makeUppercase_read (c : Char) (tl rest : List Char) (hc : c = 'r' ∨ c = 'R') :
    makeUppercase (c :: tl ++ NUL :: rest) = 'R' :: tl ++ NUL :: rest := by
  have hn : c ≠ NUL := by rcases hc with rfl | rfl <;> decide
  have h0 : (c :: tl ++ NUL :: rest).getD 0 NUL = c := rfl
  simp only [makeUppercase, List.length_cons, List.cons_append, makeUppercaseLoop,
    List.getD_cons_zero, hn, if_false, true_and, hc, if_true, List.set_cons_zero]
  rcases hc with rfl | rfl
  · simp
  · simp

theorem makeUppercase_other (c : Char) (tl rest : List Char) (hc : ¬ (c = 'r' ∨ c = 'R'))
    (hn : ∀ x ∈ c :: tl, x ≠ NUL) :
    makeUppercase (c :: tl ++ NUL :: rest) = (c :: tl).map upper ++ NUL :: rest := by
  have hc0 : c ≠ NUL := hn c (List.mem_cons_self _ _)
  have htail := makeUppercaseLoop_tail rest tl [upper c] (tl.length + 1 + rest.length)
    (by simp) (fun x hx => hn x (List.mem_cons_of_mem _ hx)) (by omega)
  simp only [List.length_singleton, List.singleton_append, List.cons_append] at htail
  have hlen : (c :: tl ++ NUL :: rest).length = (tl.length + 1 + rest.length) + 1 := by
    simp only [List.cons_append, List.length_cons, List.length_append]
    omega
  rw [makeUppercase, hlen]
  simp only [List.cons_append, makeUppercaseLoop, List.getD_cons_zero, hc0, if_false, true_and,
    hc, List.set_cons_zero, List.map_cons, Nat.zero_add]
  exact htail

/-- C17. Input normalisation: for every line `cs` (a C string: the characters
in front of the terminating NUL of the buffer), if its first character is `r`
or `R` then `makeUppercase` yields `R` followed by the rest of the line
unchanged; otherwise it replaces every character by `Char.toUpper` of it, which
is the character 32 below for `a .. z` (codes 97 to 122) and the character
itself otherwise; the line keeps its length and the buffer behind the
terminator is untouched. -/
theorem C17_makeUppercase (cs rest : List Char) (hn : ∀ c ∈ cs, c ≠ NUL) :
    (∀ c tl, cs = c :: tl → (c = 'r' ∨ c = 'R') →
      makeUppercase (cs ++ NUL :: rest) = 'R' :: tl ++ NUL :: rest) ∧
    ((∀ c tl, cs = c :: tl → ¬ (c = 'r' ∨ c = 'R')) →
      makeUppercase (cs ++ NUL :: rest) = cs.map Char.toUpper ++ NUL :: rest ∧
      (cs.map Char.toUpper).length = cs.length ∧ ∀ c ∈ cs.map Char.toUpper, c ≠ NUL) ∧
    (∀ c : Char, c.toUpper =
      if 97 ≤ c.toNat ∧ c.toNat ≤ 122 then Char.ofNat (c.toNat - 32) else c) := by
  refine ⟨?_, ?_, fun c => rfl⟩
  · intro c tl hcs hc
    subst hcs
    exact makeUppercase_read c tl rest hc
  · intro hfirst
    have hmap : cs.map Char.toUpper = cs.map upper := rfl
    refine ⟨?_, List.length_map _ _, ?_⟩
    · cases cs with
      | nil => simp [makeUppercase, makeUppercaseLoop]
      | cons c tl =>
        rw [hmap]
        exact makeUppercase_other c tl rest (hfirst c tl rfl) hn
    · intro c hc
      rw [hmap] at hc
      obtain ⟨x, hx, rfl⟩ := List.mem_map.mp hc
      exact upper_ne_NUL x (hn x hx)

/-- Witness for C17: the lines `r a.Txt` and `a x 5 f`. -/
theorem C17_makeUppercase_witness :
    (∀ c ∈ ['r', ' ', 'a', '.', 'T', 'x', 't'], c ≠ NUL) ∧
    makeUppercase (['r', ' ', 'a', '.', 'T', 'x', 't'] ++ NUL :: []) =
      'R' :: [' ', 'a', '.', 'T', 'x', 't'] ++ NUL :: [] ∧
    (∀ c ∈ ['a', ' ', 'x', ' ', '5', ' ', 'f'], c ≠ NUL) ∧
    makeUppercase (['a', ' ', 'x', ' ', '5', ' ', 'f'] ++ NUL :: []) =
      ['A', ' ', 'X', ' ', '5', ' ', 'F'] ++ NUL :: [] :=
  ⟨by decide,
    (C17_makeUppercase ['r', ' ', 'a', '.', 'T', 'x', 't'] [] (by decide)).1 'r'
      [' ', 'a', '.', 'T', 'x', 't'] rfl (Or.inl rfl),
    by decide,
    ((C17_makeUppercase ['a', ' ', 'x', ' ', '5', ' ', 'f'] [] (by decide)).2.1
      (by intro c tl h; cases h; decide)).1⟩

/-! ## The displayed memory -/

theorem laid_unique (ps : List Process) :
    ∀ (prev a : Int) (p q : Process), Laid prev ps → p ∈ ps → q ∈ ps →
      inSeg a p → inSeg a q → p = q := by
  induction ps with
  | nil => intro prev a p q _ hp; simp at hp
  | cons x ps ih =>
    intro prev a p q hl hp hq hap haq
    obtain ⟨h1, h2, h3⟩ := hl
    simp only [inSeg] at hap haq
    rcases List.mem_cons.mp hp with hpx | hp1
    · rcases List.mem_cons.mp hq with hqx | hq1
      · rw [hpx, hqx]
      · have := (laid_mem ps _ q h3 hq1).1
        subst hpx
        omega
    · rcases List.mem_cons.mp hq with hqx | hq1
      · have := (laid_mem ps _ p h3 hp1).1
        subst hqx
        omega
      · exact ih _ a p q h3 hp1 hq1 hap haq

theorem rendered_unique (m1 m2 : List Char) (tbl : List Process)
    (h1 : Rendered m1 tbl) (h2 : Rendered m2 tbl)
    (l1 : m1.length = MEMSIZE + 1) (l2 : m2.length = MEMSIZE + 1) : m1 = m2 := by
  apply List.ext_getElem?
  intro a
  by_cases ha : a < MEMSIZE
  · by_cases hp : ∃ p ∈ tbl, inSeg (a : Int) p
    · obtain ⟨p, hp1, hp2⟩ := hp
      rw [h1.1 a p hp1 hp2, h2.1 a p hp1 hp2]
    · rw [h1.2.1 a ha hp, h2.2.1 a ha hp]
  · by_cases he : a = MEMSIZE
    · rw [he, h1.2.2, h2.2.2]
    · rw [List.getElem?_eq_none (by omega), List.getElem?_eq_none (by omega)]

theorem initializeMemory_getElem? (s : State) (hl : s.memory.length = MEMSIZE + 1) (a : Nat) :
    (initializeMemory s).memory[a]? =
      if a < MEMSIZE then some '.' else if a = MEMSIZE then some NUL else none := by
  simp only [initializeMemory, List.getElem?_set, fill_length, fill_getElem?, hl, MEMSIZE]
  by_cases h1 : a < 80
  · have h2 : ¬ 80 = a := by omega
    have h3 : (0 : Int) ≤ (a : Int) ∧ (a : Int) ≤ ((80 : Nat) : Int) - 1 ∧ a < 80 + 1 := by
      omega
    rw [if_neg h2, if_pos h3, if_pos h1]
  · by_cases h2 : a = 80
    · subst h2
      simp [NUL]
    · have h3 : ¬ 80 = a := by omega
      have h4 : ¬ ((0 : Int) ≤ (a : Int) ∧ (a : Int) ≤ ((80 : Nat) : Int) - 1 ∧ a < 80 + 1) := by
        omega
      rw [if_neg h3, if_neg h4, if_neg h1, if_neg h2]
      exact List.getElem?_eq_none (by rw [hl]; simp only [MEMSIZE]; omega)

theorem init_rendered : Rendered initState.memory (table initState) := by
  have hl : zeroState.memory.length = MEMSIZE + 1 := by
    simp only [zeroState, List.length_replicate]
  have ht : table initState = [] := by decide
  rw [ht]
  refine ⟨fun a p hp => by simp at hp, ?_, ?_⟩
  · intro a ha _
    rw [initState, initializeMemory_getElem? _ hl, if_pos ha]
  · rw [initState, initializeMemory_getElem? _ hl]
    simp

theorem mem_insertSeg (p q : Process) (ps : List Process) :
    q ∈ insertSeg p ps ↔ q = p ∨ q ∈ ps := by
  obtain ⟨l1, l2, h1, h2⟩ := insertSeg_split p ps
  rw [h2, h1]
  simp only [List.mem_append, List.mem_cons]
  tauto

theorem request_cases (s : State) (hi : Inv s) (n : Char) (k : Int) (a : Char) (hk1 : 1 ≤ k) :
    (request n k a s).1 = s ∨
    ∃ h ∈ holeList s, k ≤ hsize h ∧ (request n k a s).1 = allocate n h.begin k s := by
  by_cases hgt : k > s.maxHole
  · left; simp only [request, hgt, if_true]
  · have hk : k ≤ s.maxHole := by omega
    by_cases hF : a = 'F'
    · subst hF
      obtain ⟨l1, h, l2, h1, h2, _, h4⟩ := request_F s hi n k hk1 hk
      exact Or.inr ⟨h, by rw [h1]; simp, h2, by rw [h4]⟩
    · by_cases hB : a = 'B'
      · subst hB
        obtain ⟨l1, h, l2, h1, h2, _, _, h4⟩ := request_B s hi n k hk1 hk
        exact Or.inr ⟨h, by rw [h1]; simp, h2, by rw [h4]⟩
      · by_cases hW : a = 'W'
        · subst hW
          obtain ⟨l1, h, l2, h1, h2, _, h4⟩ := request_W s hi n k hk1 hk
          exact Or.inr ⟨h, by rw [h1]; simp, by omega, by rw [h4]⟩
        · left; simp only [request, hgt, if_false, hF, hB, hW]

theorem allocate_rendered (s : State) (hi : Inv s) (hr : Rendered s.memory (table s))
    (n : Char) (h : Hole) (hm : h ∈ holeList s) (k : Int) (hk1 : 1 ≤ k) (hk : k ≤ hsize h) :
    Rendered (allocate n h.begin k s).memory (table (allocate n h.begin k s)) := by
  obtain ⟨hinv, htab, hmem⟩ := allocate_spec s hi n h hm k hk1 hk
  have hlaid := hinv.core.laid
  rw [htab] at hlaid
  rw [htab, hmem]
  have hb : 0 ≤ h.begin ∧ h.end_ ≤ (MEMSIZE : Int) - 1 := by
    have hm2 := hm
    rw [hi.holesEq] at hm2
    obtain ⟨g1, _, g3⟩ := gaps_bounds _ _ h hi.core.laid hm2
    exact ⟨g1, g3⟩
  have hlen := hi.core.memLen
  simp only [hsize] at hk
  simp only [MEMSIZE] at hb hlen
  have hseg : (⟨n, h.begin, h.begin + k - 1⟩ : Process) ∈
      insertSeg ⟨n, h.begin, h.begin + k - 1⟩ (table s) :=
    (mem_insertSeg _ _ _).mpr (Or.inl rfl)
  refine ⟨?_, ?_, ?_⟩
  · intro a p hp hap
    rw [fill_getElem?]
    by_cases hin : h.begin ≤ (a : Int) ∧ (a : Int) ≤ h.begin + k - 1
    · have hpe : p = ⟨n, h.begin, h.begin + k - 1⟩ :=
        laid_unique _ 0 a p _ hlaid hp hseg hap ⟨hin.1, hin.2⟩
      have hc : h.begin ≤ (a : Int) ∧ (a : Int) ≤ h.begin + k - 1 ∧ a < s.memory.length := by
        refine ⟨hin.1, hin.2, ?_⟩
        rw [hlen]; omega
      rw [if_pos hc, hpe]
    · have hc : ¬ (h.begin ≤ (a : Int) ∧ (a : Int) ≤ h.begin + k - 1 ∧
          a < s.memory.length) := fun hc => hin ⟨hc.1, hc.2.1⟩
      rw [if_neg hc]
      rcases (mem_insertSeg _ _ _).mp hp with hpe | hp1
      · exfalso
        rw [hpe] at hap
        exact hin hap
      · exact hr.1 a p hp1 hap
  · intro a ha hnone
    rw [fill_getElem?]
    have hin : ¬ (h.begin ≤ (a : Int) ∧ (a : Int) ≤ h.begin + k - 1) :=
      fun hin => hnone ⟨_, hseg, hin⟩
    have hc : ¬ (h.begin ≤ (a : Int) ∧ (a : Int) ≤ h.begin + k - 1 ∧
        a < s.memory.length) := fun hc => hin ⟨hc.1, hc.2.1⟩
    rw [if_neg hc]
    refine hr.2.1 a ha ?_
    rintro ⟨p, hp, hap⟩
    exact hnone ⟨p, (mem_insertSeg _ _ _).mpr (Or.inr hp), hap⟩
  · rw [fill_getElem?]
    have hc : ¬ (h.begin ≤ ((MEMSIZE : Nat) : Int) ∧ ((MEMSIZE : Nat) : Int) ≤ h.begin + k - 1 ∧
        MEMSIZE < s.memory.length) := by
      simp only [MEMSIZE]; omega
    rw [if_neg hc]
    exact hr.2.2

theorem release_rendered (past : Process) (name : Char) (s : State) (hi : Inv s)
    (hr : Rendered s.memory (table s)) :
    Rendered (release past name s).memory (table (release past name s)) := by
  obtain ⟨_, htab, hmem⟩ := release_spec past name s hi
  rw [htab]
  have hlaid := hi.core.laid
  refine ⟨?_, ?_, ?_⟩
  · intro a p hp hap
    obtain ⟨hp1, hp2⟩ := List.mem_filter.mp hp
    have hne : p.name ≠ name := by simpa using hp2
    have hnf : ¬ Freed name (table s) a := by
      rintro ⟨q, hq, hqn, hqa⟩
      have := laid_unique _ 0 a p q hlaid hp1 hq hap hqa
      rw [this] at hne
      exact hne hqn
    rw [(hmem a).2 hnf]
    exact hr.1 a p hp1 hap
  · intro a ha hnone
    by_cases hf : Freed name (table s) a
    · exact (hmem a).1 hf
    · rw [(hmem a).2 hf]
      refine hr.2.1 a ha ?_
      rintro ⟨p, hp, hap⟩
      by_cases hn : p.name = name
      · exact hf ⟨p, hp, hn, hap⟩
      · exact hnone ⟨p, List.mem_filter.mpr ⟨hp, by simpa using hn⟩, hap⟩
  · have hnf : ¬ Freed name (table s) MEMSIZE := by
      rintro ⟨q, hq, _, hqa⟩
      have := (laid_mem _ 0 q hlaid hq).2.2
      simp only [inSeg] at hqa
      omega
    rw [(hmem MEMSIZE).2 hnf]
    exact hr.2.2

theorem updateHolesLoop_memory (n : Nat) :
    ∀ (i : Nat) (prev : Int) (s : State), (updateHolesLoop n i prev s).2.memory = s.memory := by
  induction n with
  | zero => intro i prev s; rfl
  | succ n ih =>
    intro i prev s
    simp only [updateHolesLoop]
    rw [ih]
    split <;> rfl

theorem updateHoles_memory (s : State) : (updateHoles s).memory = s.memory := by
  simp only [updateHoles]
  split
  · show (updateHolesLoop _ _ _ _).2.memory = _
    rw [updateHolesLoop_memory]
  · rw [updateHolesLoop_memory]

theorem paintLoop_spec (mid : List Process) :
    ∀ (pre post : List Process) (m : List Char) (prev : Int), Laid prev mid →
      m.length = MEMSIZE + 1 → ∀ a : Nat,
        (∀ p ∈ mid, inSeg (a : Int) p →
          (paintLoop (pre ++ mid ++ post) mid.length pre.length m)[a]? = some p.name) ∧
        ((¬ ∃ p ∈ mid, inSeg (a : Int) p) →
          (paintLoop (pre ++ mid ++ post) mid.length pre.length m)[a]? = m[a]?) := by
  induction mid with
  | nil =>
    intro pre post m prev _ _ a
    exact ⟨fun p hp => by simp at hp, fun _ => rfl⟩
  | cons x mid ih =>
    intro pre post m prev hl hlen a
    obtain ⟨h1, h2, h3⟩ := hl
    have hx := laid_le _ _ h3
    have hget : (pre ++ x :: mid ++ post).getD pre.length default = x := by
      simpa using getD_length_append pre x (mid ++ post) default
    have e : pre ++ x :: mid ++ post = (pre ++ [x]) ++ mid ++ post := by simp
    have el : pre.length + 1 = (pre ++ [x]).length := by simp
    simp only [List.length_cons, paintLoop, hget]
    rw [e, el]
    obtain ⟨g1, g2⟩ := ih (pre ++ [x]) post (fill m x.name x.begin x.end_) (x.end_ + 1) h3
      (by rw [fill_length]; exact hlen) a
    have hfar : ∀ q ∈ mid, inSeg (a : Int) q → x.end_ < (a : Int) := by
      intro q hq hqa
      have := (laid_mem mid _ q h3 hq).1
      simp only [inSeg] at hqa
      omega
    constructor
    · intro p hp hpa
      rcases List.mem_cons.mp hp with hpx | hp1
      · subst hpx
        have hnone : ¬ ∃ q ∈ mid, inSeg (a : Int) q := by
          rintro ⟨q, hq, hqa⟩
          have := hfar q hq hqa
          simp only [inSeg] at hpa
          omega
        rw [g2 hnone, fill_getElem?]
        simp only [inSeg] at hpa
        have hc : p.begin ≤ (a : Int) ∧ (a : Int) ≤ p.end_ ∧ a < m.length := by
          refine ⟨hpa.1, hpa.2, ?_⟩
          rw [hlen]; omega
        rw [if_pos hc]
      · exact g1 p hp1 hpa
    · intro hnone
      have hnone1 : ¬ ∃ q ∈ mid, inSeg (a : Int) q := by
        rintro ⟨q, hq, hqa⟩
        exact hnone ⟨q, List.mem_cons_of_mem _ hq, hqa⟩
      rw [g2 hnone1, fill_getElem?]
      have hc : ¬ (x.begin ≤ (a : Int) ∧ (a : Int) ≤ x.end_ ∧ a < m.length) := by
        rintro ⟨c1, c2, _⟩
        exact hnone ⟨x, List.mem_cons_self _ _, c1, c2⟩
      rw [if_neg hc]

theorem compact_rendered (s : State) (hi : Inv s) :
    Rendered (compact s).memory (table (compact s)) := by
  obtain ⟨hinv, htab⟩ := compact_spec s hi
  have hc := hi.core
  have htl := table_length s hc.procLen hc.allocLe
  have hlaid := hinv.core.laid
  rw [htab] at hlaid
  have hrl := relocate_length (table s) 0
  have hloop : compactLoop s.allocations 0 0 s.processes =
      [] ++ relocate 0 (table s) ++ s.processes.drop s.allocations := by
    have h := compactLoop_spec (table s) [] (s.processes.drop s.allocations) 0
    have harr : s.processes = [] ++ table s ++ s.processes.drop s.allocations := by
      simp [table]
    rw [← harr, htl] at h
    simpa using h
  have hmem : (compact s).memory =
      paintLoop ([] ++ relocate 0 (table s) ++ s.processes.drop s.allocations)
        (relocate 0 (table s)).length ([] : List Process).length (initializeMemory s).memory := by
    have h0 : (compact s).memory =
        paintLoop (compactLoop s.allocations 0 0 s.processes) s.allocations 0
          (initializeMemory s).memory := by
      rw [compact, updateHoles_memory]
      simp only [initializeMemory]
    rw [h0, hloop, hrl, htl, List.length_nil]
  have hinit := initializeMemory_getElem? s hc.memLen
  have hilen : (initializeMemory s).memory.length = MEMSIZE + 1 := by
    rw [initializeMemory_memLen]; exact hc.memLen
  have hpaint := paintLoop_spec (relocate 0 (table s)) [] (s.processes.drop s.allocations)
    (initializeMemory s).memory 0 hlaid hilen
  rw [htab, hmem]
  refine ⟨fun a p hp hap => (hpaint a).1 p hp hap, ?_, ?_⟩
  · intro a ha hnone
    rw [(hpaint a).2 hnone, hinit, if_pos ha]
  · have hnone : ¬ ∃ p ∈ relocate 0 (table s), inSeg ((MEMSIZE : Nat) : Int) p := by
      rintro ⟨p, hp, hpa⟩
      have := (laid_mem _ 0 p hlaid hp).2.2
      simp only [inSeg] at hpa
      omega
    rw [(hpaint MEMSIZE).2 hnone, hinit]
    simp

theorem reachable_rendered (s : State) (h : Reachable s) : Rendered s.memory (table s) := by
  induction h with
  | init => exact init_rendered
  | request s name size algo hs hsize ih =>
    have hi := reachable_inv s hs
    rcases request_cases s hi name size algo hsize with h | ⟨h, hm, hk, he⟩
    · rw [h]; exact ih
    · rw [he]; exact allocate_rendered s hi ih name h hm size hsize hk
  | release s past name hs ih => exact release_rendered past name s (reachable_inv s hs) ih
  | compact s hs _ => exact compact_rendered s (reachable_inv s hs)

theorem dispatched_reachable (s : State) (h : Dispatched s) : Reachable s := by
  induction h with
  | init => exact Reachable.init
  | request s name size algo _ _ hsize ih => exact Reachable.request s name size algo ih hsize
  | release s past name _ ih => exact Reachable.release s past name ih
  | compact s _ ih => exact Reachable.compact s ih

theorem relocate_names (ps : List Process) :
    ∀ (prev : Int) (q : Process), q ∈ relocate prev ps → ∃ p ∈ ps, q.name = p.name := by
  induction ps with
  | nil => intro prev q hq; simp [relocate] at hq
  | cons x ps ih =>
    intro prev q hq
    simp only [relocate, List.mem_cons] at hq
    rcases hq with rfl | hq
    · exact ⟨x, List.mem_cons_self _ _, rfl⟩
    · obtain ⟨p, hp, he⟩ := ih _ q hq
      exact ⟨p, List.mem_cons_of_mem _ hp, he⟩

theorem dispatched_owner (s : State) (h : Dispatched s) : ∀ p ∈ table s, p.name ≠ NUL := by
  induction h with
  | init =>
    have ht : table initState = [] := by decide
    rw [ht]
    intro p hp
    simp at hp
  | request s name size algo hs hname hsize ih =>
    have hi := reachable_inv s (dispatched_reachable s hs)
    rcases request_cases s hi name size algo hsize with h | ⟨h, hm, hk, he⟩
    · rw [h]; exact ih
    · rw [he, (allocate_spec s hi name h hm size hsize hk).2.1]
      intro p hp
      rcases (mem_insertSeg _ _ _).mp hp with hpe | hp1
      · rw [hpe]; exact hname
      · exact ih p hp1
  | release s past name hs ih =>
    have hi := reachable_inv s (dispatched_reachable s hs)
    rw [(release_spec past name s hi).2.1]
    intro p hp
    exact ih p (List.mem_filter.mp hp).1
  | compact s hs ih =>
    have hi := reachable_inv s (dispatched_reachable s hs)
    rw [(compact_spec s hi).2]
    intro q hq
    obtain ⟨p, hp, he⟩ := relocate_names _ _ q hq
    rw [he]
    exact ih p hp

theorem memory_split (s : State) (hl : s.memory.length = MEMSIZE + 1)
    (hr : Rendered s.memory (table s)) : s.memory = cells s ++ [NUL] := by
  have h1 : s.memory = cells s ++ s.memory.drop MEMSIZE := by
    rw [cells, List.take_append_drop]
  have h2 : s.memory.drop MEMSIZE = [NUL] := by
    apply List.ext_getElem?
    intro a
    rw [List.getElem?_drop]
    cases a with
    | zero => simpa using hr.2.2
    | succ a =>
      rw [List.getElem?_eq_none (by omega)]
      simp
  rw [h2] at h1
  exact h1

theorem cells_getElem? (s : State) (a : Nat) (ha : a < MEMSIZE) :
    (cells s)[a]? = s.memory[a]? := by
  rw [cells, List.getElem?_take_of_lt ha]

theorem shown_eq_cells (s : State) (hi : Inv s) (hr : Rendered s.memory (table s))
    (hn : ∀ p ∈ table s, p.name ≠ NUL) : shown s = cells s := by
  have hsplit := memory_split s hi.core.memLen hr
  have hlen : (cells s).length = MEMSIZE := by
    rw [cells, List.length_take, hi.core.memLen]; simp
  have hall : ∀ c ∈ cells s, (decide (c ≠ NUL)) = true := by
    intro c hc
    obtain ⟨a, ha, he⟩ := List.getElem_of_mem hc
    rw [hlen] at ha
    have hget : (cells s)[a]? = some c := by
      rw [List.getElem?_eq_getElem (by rw [hlen]; exact ha), he]
    rw [cells_getElem? s a ha] at hget
    have hne : c ≠ NUL := by
      by_cases hp : ∃ p ∈ table s, inSeg (a : Int) p
      · obtain ⟨p, hp1, hp2⟩ := hp
        have := hr.1 a p hp1 hp2
        rw [hget] at this
        rw [Option.some.inj this]
        exact hn p hp1
      · have := hr.2.1 a ha hp
        rw [hget] at this
        rw [Option.some.inj this]
        decide
    simpa using hne
  rw [shown]
  conv_lhs => rw [hsplit]
  rw [List.takeWhile_append_of_pos hall]
  simp [List.takeWhile]

theorem relocate_idem (ps : List Process) :
    ∀ prev : Int, relocate prev (relocate prev ps) = relocate prev ps := by
  induction ps with
  | nil => intro prev; rfl
  | cons p ps ih =>
    intro prev
    have e : prev + (p.end_ - p.begin) - prev = p.end_ - p.begin := by omega
    simp only [relocate, e, ih]

/-- C15. The displayed address space is derivable from the process table: in
every reachable state `memory` has 81 slots, the last holding the terminator;
its first 80 cells hold, at every address `a` in `0 .. 79`, the owner symbol of
the segment containing `a` if there is one and `'.'` otherwise; and the string
that `S` prints is exactly these 80 cells whenever no owner symbol is NUL, in
particular in every state reached through the dispatcher, whose owner symbols
are first characters of tokens. -/
theorem C15_display (s : State) (hs : Reachable s) :
    s.memory.length = 81 ∧ s.memory[80]? = some NUL ∧ (cells s).length = 80 ∧
    (∀ a : Nat, a < 80 →
      (∀ p ∈ table s, inSeg (a : Int) p → (cells s)[a]? = some p.name) ∧
      ((¬ ∃ p ∈ table s, inSeg (a : Int) p) → (cells s)[a]? = some '.')) ∧
    ((∀ p ∈ table s, p.name ≠ NUL) → shown s = cells s) ∧
    (Dispatched s → shown s = cells s) := by
  have hi := reachable_inv s hs
  have hr := reachable_rendered s hs
  have hlen := hi.core.memLen
  refine ⟨hlen, hr.2.2, ?_, ?_, shown_eq_cells s hi hr,
    fun hd => shown_eq_cells s hi hr (dispatched_owner s hd)⟩
  · rw [cells, List.length_take, hlen]; simp [MEMSIZE]
  · intro a ha
    rw [cells_getElem? s a ha]
    exact ⟨fun p hp hpa => hr.1 a p hp hpa, fun hnone => hr.2.1 a ha hnone⟩

/-- Witness for C15: the state after `A A 20 F`, `A B 30 B`, `F A`, `A C 25 W`,
whose display is 20 `.`, 30 `B`, 25 `C`, 5 `.`. -/
theorem C15_display_witness :
    Reachable scenario4 ∧ (∀ p ∈ table scenario4, p.name ≠ NUL) ∧
    (cells scenario4).length = 80 ∧ shown scenario4 = cells scenario4 ∧
    (∀ a : Nat, a < 80 →
      (∀ p ∈ table scenario4, inSeg (a : Int) p → (cells scenario4)[a]? = some p.name) ∧
      ((¬ ∃ p ∈ table scenario4, inSeg (a : Int) p) → (cells scenario4)[a]? = some '.')) :=
  ⟨Reachable.request _ _ _ _ twoHoles_reachable (by decide), by decide,
    (C15_display scenario4 (Reachable.request _ _ _ _ twoHoles_reachable (by decide))).2.2.1,
    (C15_display scenario4 (Reachable.request _ _ _ _ twoHoles_reachable (by decide))).2.2.2.2.1
      (by decide),
    (C15_display scenario4 (Reachable.request _ _ _ _ twoHoles_reachable (by decide))).2.2.2.1⟩

/-- C19. Allocate-then-release round trip: in every reachable state `s`, for
every owner `n` that owns no segment in `s`, every strategy among `F`, `B`, `W`
and every size `k` with `1 ≤ k ≤ maxHole`, `request n k a` followed by
`release n` (whatever the read one past the table yields) gives a state with
the memory, process table, hole list and `maxHole` of `s`. -/
theorem C19_round_trip (s : State) (hs : Reachable s) (past : Process) (n : Char) (k : Int)
    (a : Char) (hn : ∀ p ∈ table s, p.name ≠ n) (ha : a = 'F' ∨ a = 'B' ∨ a = 'W')
    (hk1 : 1 ≤ k) (hk : k ≤ s.maxHole) :
    (release past n (request n k a s).1).memory = s.memory ∧
    table (release past n (request n k a s).1) = table s ∧
    holeList (release past n (request n k a s).1) = holeList s ∧
    (release past n (request n k a s).1).maxHole = s.maxHole := by
  have hi := reachable_inv s hs
  have hs1 : Reachable (request n k a s).1 := Reachable.request s n k a hs hk1
  have hi1 := reachable_inv _ hs1
  have hst : Reachable (release past n (request n k a s).1) := Reachable.release _ past n hs1
  have hit := reachable_inv _ hst
  obtain ⟨b, l1, l2, g1, g2⟩ := request_places s hi n k a ha hk1 hk
  have htab : table (release past n (request n k a s).1) = table s := by
    rw [(release_spec past n _ hi1).2.1, g2, g1]
    have h1 : ∀ p ∈ l1, p.name ≠ n := fun p hp => hn p (by rw [g1]; simp [hp])
    have h2 : ∀ p ∈ l2, p.name ≠ n := fun p hp => hn p (by rw [g1]; simp [hp])
    rw [List.filter_append, List.filter_cons]
    simp only [ne_eq, not_true_eq_false, decide_False, Bool.false_eq_true, if_false]
    rw [List.filter_eq_self.mpr (fun p hp => by simpa using h1 p hp),
      List.filter_eq_self.mpr (fun p hp => by simpa using h2 p hp)]
  refine ⟨?_, htab, ?_, ?_⟩
  · have hr := reachable_rendered _ hst
    rw [htab] at hr
    exact rendered_unique _ _ _ hr (reachable_rendered s hs) hit.core.memLen hi.core.memLen
  · rw [hit.holesEq, htab, hi.holesEq]
  · rw [hit.maxEq, htab, hi.maxEq]

/-- Witness for C19: a best-fit request of size 10 for the new owner `C` in the
state with `B:[20,49]`, followed by the release of `C`. -/
theorem C19_round_trip_witness :
    Reachable twoHoles ∧ (∀ p ∈ table twoHoles, p.name ≠ 'C') ∧
    ('B' = 'F' ∨ 'B' = 'B' ∨ 'B' = 'W') ∧ (1 : Int) ≤ 10 ∧ (10 : Int) ≤ twoHoles.maxHole ∧
    (release default 'C' (request 'C' 10 'B' twoHoles).1).memory = twoHoles.memory ∧
    table (release default 'C' (request 'C' 10 'B' twoHoles).1) = table twoHoles ∧
    holeList (release default 'C' (request 'C' 10 'B' twoHoles).1) = holeList twoHoles ∧
    (release default 'C' (request 'C' 10 'B' twoHoles).1).maxHole = twoHoles.maxHole :=
  ⟨twoHoles_reachable, by decide, by decide, by decide, by decide,
    C19_round_trip twoHoles twoHoles_reachable default 'C' 10 'B' (by decide) (by decide)
      (by decide) (by decide)⟩

/-- C20. `compact` is idempotent: in every reachable state `s`, `compact`
applied to `compact s` gives the memory, process table, hole list and
`maxHole` of `compact s`. -/
theorem C20_compact_idempotent (s : State) (hs : Reachable s) :
    (compact (compact s)).memory = (compact s).memory ∧
    table (compact (compact s)) = table (compact s) ∧
    holeList (compact (compact s)) = holeList (compact s) ∧
    (compact (compact s)).maxHole = (compact s).maxHole := by
  have hi := reachable_inv s hs
  have hs1 : Reachable (compact s) := Reachable.compact s hs
  have hi1 := reachable_inv _ hs1
  have hs2 : Reachable (compact (compact s)) := Reachable.compact _ hs1
  have hi2 := reachable_inv _ hs2
  have htab : table (compact (compact s)) = table (compact s) := by
    rw [(compact_spec _ hi1).2, (compact_spec s hi).2, relocate_idem]
  refine ⟨?_, htab, ?_, ?_⟩
  · have hr := reachable_rendered _ hs2
    rw [htab] at hr
    exact rendered_unique _ _ _ hr (reachable_rendered _ hs1) hi2.core.memLen hi1.core.memLen
  · rw [hi2.holesEq, htab, hi1.holesEq]
  · rw [hi2.maxEq, htab, hi1.maxEq]

/-- Witness for C20: the fragmented state after `A A 20 F`, `A B 30 B`, `F A`,
`A C 25 W`. -/
theorem C20_compact_idempotent_witness :
    Reachable scenario4 ∧
    (compact (compact scenario4)).memory = (compact scenario4).memory ∧
    table (compact (compact scenario4)) = table (compact scenario4) ∧
    holeList (compact (compact scenario4)) = holeList (compact scenario4) ∧
    (compact (compact scenario4)).maxHole = (compact scenario4).maxHole :=
  ⟨Reachable.request _ _ _ _ twoHoles_reachable (by decide),
    C20_compact_idempotent scenario4 (Reachable.request _ _ _ _ twoHoles_reachable (by decide))⟩

/-! ## Bounds of the table accesses in `release` -/

theorem packedTo_reachable (n : Nat) : Reachable (packedTo n) := by
  induction n with
  | zero => exact Reachable.init
  | succ n ih => exact Reachable.request _ _ _ _ ih (by decide)

theorem shiftDownChecked_sound (past : Process) (n : Nat) :
    ∀ (j : Nat) (ps ps1 : List Process), shiftDownChecked n j ps = some ps1 →
      shiftDown past n j ps = ps1 := by
  induction n with
  | zero =>
    intro j ps ps1 h
    simpa [shiftDownChecked, shiftDown] using h
  | succ n ih =>
    intro j ps ps1 h
    simp only [shiftDownChecked] at h
    split at h
    · split at h
      · rename_i v hv
        have hg : ps.getD (j + 1) past = v := by
          rw [List.getD_eq_getElem?_getD, hv]; rfl
        simp only [shiftDown, hg]
        exact ih _ _ _ h
      · exact absurd h (by simp)
    · exact absurd h (by simp)

theorem releaseCheckedLoop_sound (past : Process) (name : Char) (fuel : Nat) :
    ∀ (i : Nat) (s t : State), releaseCheckedLoop name fuel i s = some t →
      releaseLoop past name fuel i s = t := by
  induction fuel with
  | zero =>
    intro i s t h
    simpa [releaseCheckedLoop, releaseLoop] using h
  | succ f ih =>
    intro i s t h
    simp only [releaseCheckedLoop] at h
    simp only [releaseLoop]
    by_cases hlt : i < s.allocations
    · rw [if_pos hlt] at h ⊢
      split at h
      · exact absurd h (by simp)
      · rename_i p hp
        have hg : s.processes.getD i default = p := by
          rw [List.getD_eq_getElem?_getD, hp]; rfl
        rw [hg]
        by_cases hn : p.name = name
        · rw [if_pos hn] at h ⊢
          split at h
          · exact absurd h (by simp)
          · rename_i ps hps
            have hsd := shiftDownChecked_sound past _ _ _ _ hps
            have hr : releaseAt past i s =
                updateHoles
                  { s with
                    memory := fill s.memory '.' p.begin p.end_
                    processes := ps
                    allocations := s.allocations - 1 } := by
              simp only [releaseAt, hg, hsd]
            rw [hr]
            exact ih _ _ _ h
        · rw [if_neg hn] at h ⊢
          exact ih _ _ _ h
    · rw [if_neg hlt] at h ⊢
      simpa using h

/-- Whenever the bounds-checked `release` returns a state, `release` returns
the same state, whatever value stands for the read past the table. -/
theorem releaseChecked_sound (past : Process) (name : Char) (s t : State)
    (h : releaseChecked name s = some t) : release past name s = t :=
  releaseCheckedLoop_sound past name _ _ _ _ h

theorem getElem?_length_append {α : Type} (pre : List α) (x : α) (post : List α) :
    (pre ++ x :: post)[pre.length]? = some x := by
  induction pre with
  | nil => simp
  | cons a pre ih => simpa using ih

theorem getElem?_succ_length_append {α : Type} (pre : List α) (x y : α) (post : List α) :
    (pre ++ x :: y :: post)[pre.length + 1]? = some y := by
  induction pre with
  | nil => simp
  | cons a pre ih => simpa using ih

theorem shiftDownChecked_spec (mid : List Process) :
    ∀ (pre : List Process) (x y : Process) (post : List Process),
      shiftDownChecked (mid.length + 1) pre.length (pre ++ x :: mid ++ y :: post) =
        some (pre ++ mid ++ y :: y :: post) := by
  induction mid with
  | nil =>
    intro pre x y post
    have hlt : pre.length < (pre ++ [x] ++ y :: post).length := by simp
    have hget : (pre ++ [x] ++ y :: post)[pre.length + 1]? = some y := by
      have h := getElem?_succ_length_append pre x y post
      simpa using h
    have hset := set_length_append pre x y (y :: post)
    simp only [List.append_assoc, List.singleton_append, List.cons_append,
      List.nil_append] at hlt hget hset ⊢
    simp only [List.length_nil, Nat.zero_add, shiftDownChecked, hlt, if_true, hget, hset]
  | cons z mid ih =>
    intro pre x y post
    have hlt : pre.length < (pre ++ x :: z :: mid ++ y :: post).length := by simp
    have hget : (pre ++ x :: z :: mid ++ y :: post)[pre.length + 1]? = some z := by
      have h := getElem?_succ_length_append pre x z (mid ++ y :: post)
      simpa using h
    have hset := set_length_append pre x z (z :: mid ++ y :: post)
    have h1 := ih (pre ++ [z]) z y post
    simp only [List.length_append, List.length_singleton, List.append_assoc,
      List.singleton_append, List.cons_append, List.nil_append] at h1
    simp only [List.append_assoc, List.cons_append, List.length_cons] at hlt hget hset ⊢
    rw [shiftDownChecked, if_pos hlt]
    simp only [hget, hset, h1]

theorem releaseCheckedLoop_ok (name : Char) (suf : List Process) :
    ∀ (fuel : Nat) (pre : List Process) (s : State), Inv s → table s = pre ++ suf →
      s.allocations < MEMSIZE → ∃ t, releaseCheckedLoop name fuel pre.length s = some t := by
  induction suf with
  | nil =>
    intro fuel pre s hi htab _
    have htl := table_length s hi.core.procLen hi.core.allocLe
    have hn : ¬ pre.length < s.allocations := by
      rw [← htl, htab]; simp
    cases fuel with
    | zero => exact ⟨s, rfl⟩
    | succ f => exact ⟨s, by simp only [releaseCheckedLoop, hn, if_false]⟩
  | cons p suf ih =>
    intro fuel pre s hi htab hfull
    cases fuel with
    | zero => exact ⟨s, rfl⟩
    | succ f =>
      have hc := hi.core
      have htl := table_length s hc.procLen hc.allocLe
      have hall : s.allocations = pre.length + suf.length + 1 := by
        rw [← htl, htab]; simp; omega
      obtain ⟨hget, hlt, hinv, ht, _⟩ := releaseAt_spec default s hi pre p suf htab
      obtain ⟨y, post, hpost⟩ : ∃ y post, s.processes.drop s.allocations = y :: post := by
        cases hd : s.processes.drop s.allocations with
        | nil =>
          have := congrArg List.length hd
          simp only [List.length_drop, List.length_nil, hc.procLen] at this
          omega
        | cons y post => exact ⟨y, post, rfl⟩
      have harr : s.processes = pre ++ p :: suf ++ y :: post := by
        rw [← hpost, ← htab, table, List.take_append_drop]
      have hread : s.processes[pre.length]? = some p := by
        rw [harr]
        have h := getElem?_length_append pre p (suf ++ y :: post)
        simpa using h
      have hsub : s.allocations - pre.length = suf.length + 1 := by omega
      have hshift : shiftDownChecked (s.allocations - pre.length) pre.length s.processes =
          some (pre ++ suf ++ y :: y :: post) := by
        rw [hsub]
        conv_lhs => rw [harr]
        exact shiftDownChecked_spec suf pre p y post
      have hsd := shiftDownChecked_sound default _ _ _ _ hshift
      have hr : releaseAt default pre.length s =
          updateHoles
            { s with
              memory := fill s.memory '.' p.begin p.end_
              processes := pre ++ suf ++ y :: y :: post
              allocations := s.allocations - 1 } := by
        simp only [releaseAt, hget, hsd]
      simp only [releaseCheckedLoop, hlt, if_true, hread, hshift]
      by_cases hn : p.name = name
      · rw [if_pos hn, ← hr]
        have hfull1 : (releaseAt default pre.length s).allocations < MEMSIZE := by
          have h1 := table_length _ hinv.core.procLen hinv.core.allocLe
          rw [ht] at h1
          rw [← h1]
          simp only [List.length_append]
          omega
        exact ih f pre _ hinv ht hfull1
      · rw [if_neg hn]
        have hpl : pre.length + 1 = (pre ++ [p]).length := by simp
        rw [hpl]
        exact ih f (pre ++ [p]) s hi (by rw [htab]; simp) hfull

/-- While the table holds fewer than `MEMSIZE` segments, every access of
`release` to `processes` is in range. -/
theorem releaseChecked_ok (name : Char) (s : State) (hi : Inv s)
    (hfull : s.allocations < MEMSIZE) : ∃ t, releaseChecked name s = some t :=
  releaseCheckedLoop_ok name (table s) s.allocations [] s hi rfl hfull

theorem packed_facts :
    packed.allocations = 80 ∧ packed.processes.length = 80 ∧
    (releaseChecked 'A' packed).isNone = true := by
  decide!

/-- C18, the failing input. After 80 commands `A A 1 F` the state is reachable
and the table holds `MEMSIZE = 80` segments; `release` of the owner `A` then
reads `processes[80]`: the bounds-checked `release` takes the out-of-range
branch. -/
theorem C18_release_out_of_range :
    Reachable packed ∧ packed.allocations = 80 ∧ packed.processes.length = 80 ∧
    releaseChecked 'A' packed = none :=
  ⟨packedTo_reachable 80, packed_facts.1, packed_facts.2.1,
    Option.isNone_iff_eq_none.mp packed_facts.2.2⟩

end Memory
